import Mathlib

/-!
# Verification of `timeline`

Shallow embedding of `timeline.go` (package `timeline`) and theorems about it.

## Modelling conventions

* `Timeline[T ng.Int]` is generic in a signed integer type `T`.  The constraint
  `ng.Int` lives in another module; the embedding takes the bit width `w` of `T` as
  a parameter.  Values of `T` are integers in `[-2^(w-1), 2^(w-1))`, and every
  arithmetic operation of the source is followed by `wrap w` (reduction
  modulo `2^w` into that range), which is what Go does on signed overflow.
* Go's `/` on integers truncates toward zero and panics when the divisor is zero:
  `wdiv` returns `none` for the panic.
* The count `n` of `LoopN` and the index handed to `Loop`/`LoopN` callbacks have Go
  type `int`.  `int` is taken to be at least as wide as `T`, so the conversion
  `int(m)` keeps the value and `T(n)` is `wrap w n`.
* A callback is a Go function value that may read and write anything it closes
  over.  It is embedded as a transformer of an arbitrary state `σ`; a callback of
  type `func(Timeline[T])` is a `Timeline → σ → σ`, one of type
  `func(int, Timeline[T])` is a `Int × Timeline → σ → σ`.  `for _, fn := range f`
  is a left fold over the list `f`.
* `from` and `to` are reserved words of Lean; the fields are called `from_` and `to_`.
* `Ratio` computes in `float64`.  The embedding takes the three floating-point
  operations it uses (the constant `0`, the conversion `float64(x)` and the division)
  as a parameter `FloatOps F`; `exactOps` performs them on exact rationals, without
  the rounding of `float64`, and `checkedOps` records a division by zero.
  `float64Ops` performs them with the rounding of `float64`: every result is rounded
  to a 53-bit significand, to nearest, ties to even.  Its values are the rationals a
  `float64` holds; the exponent is not bounded, which makes no difference for
  integers of at most 64 bits and their quotients (all of them normal numbers).
* A callback of type `func()` is a `Unit → σ → σ`.
-/

namespace timeline

/-! ## Machine integers -/

/-- Reduction of an integer into the range of a signed `w`-bit integer. -/
def wrap (w : Nat) (x : Int) : Int :=
  if x % 2 ^ w < 2 ^ (w - 1) then x % 2 ^ w else x % 2 ^ w - 2 ^ w

/-- Smallest value of a signed `w`-bit integer. -/
def minT (w : Nat) : Int := -(2 ^ (w - 1))

/-- Largest value of a signed `w`-bit integer. -/
def maxT (w : Nat) : Int := 2 ^ (w - 1) - 1

/-- Membership in the range of a signed `w`-bit integer. -/
def InRange (w : Nat) (x : Int) : Prop := minT w ≤ x ∧ x ≤ maxT w

instance (w : Nat) (x : Int) : Decidable (InRange w x) := by
  unfold InRange; infer_instance

/-- Addition of `T`. -/
def wadd (w : Nat) (a b : Int) : Int := wrap w (a + b)

/-- Subtraction of `T`. -/
def wsub (w : Nat) (a b : Int) : Int := wrap w (a - b)

/-- Multiplication of `T`. -/
def wmul (w : Nat) (a b : Int) : Int := wrap w (a * b)

/-- Division of `T`: truncated toward zero, `none` when the divisor is zero. -/
def wdiv (w : Nat) (a b : Int) : Option Int :=
  if b = 0 then none else some (wrap w (Int.tdiv a b))

/-! ## The cursor -/

/-- The struct `Timeline[T]` of `timeline.go`. -/
structure Timeline where
  from_ : Int
  to_ : Int
  now : Int
deriving DecidableEq, Repr

/-- The function `New`: the field `to` is left at its zero value. -/
def New (now : Int) : Timeline :=
  { from_ := 0, to_ := 0, now := now }

/-- The method `Elapsed`. -/
def Timeline.Elapsed (w : Nat) (t : Timeline) : Int :=
  wsub w t.now t.from_

/-- The method `Span`.  The receiver is a copy, `t.to` is assigned first; the
callbacks run on the updated copy when `now` is inside the window. -/
def Timeline.Span {σ : Type} (w : Nat) (t : Timeline) (duration : Int)
    (f : List (Timeline → σ → σ)) (s : σ) : Timeline × σ :=
  let t1 : Timeline := { t with to_ := wadd w t.from_ duration }
  let s1 : σ :=
    if t1.from_ ≤ t1.now ∧ t1.now < t1.to_ then f.foldl (fun acc fn => fn t1 acc) s else s
  ({ from_ := t1.to_, to_ := t1.to_, now := t1.now }, s1)

/-- The method `Loop`.  It has no result; the embedding returns the state after the
callbacks, or `none` when the division panics. -/
def Timeline.Loop {σ : Type} (w : Nat) (t : Timeline) (duration : Int)
    (f : List (Int × Timeline → σ → σ)) (s : σ) : Option σ :=
  if t.now < t.from_ then some s
  else
    match wdiv w (wsub w t.now t.from_) duration with
    | none => none
    | some n =>
      some (f.foldl (fun acc fn => fn (n,
        { from_ := wadd w t.from_ (wmul w n duration),
          to_ := wadd w t.from_ (wmul w (wadd w n 1) duration),
          now := t.now }) acc) s)

/-- The method `LoopN`.  `n` has Go type `int` and is converted to `T` where it is
used; `none` when the division panics. -/
def Timeline.LoopN {σ : Type} (w : Nat) (t : Timeline) (duration : Int) (n : Int)
    (f : List (Int × Timeline → σ → σ)) (s : σ) : Option (Timeline × σ) :=
  match wdiv w (wsub w t.now t.from_) duration with
  | none => none
  | some m =>
    let s1 : σ :=
      if 0 ≤ m ∧ m < wrap w n then
        f.foldl (fun acc fn => fn (m,
          { from_ := wadd w t.from_ (wmul w m duration),
            to_ := wadd w t.from_ (wmul w (wadd w m 1) duration),
            now := t.now }) acc) s
      else s
    some ({ from_ := wadd w t.from_ (wmul w (wrap w n) duration),
            to_ := wadd w t.from_ (wmul w (wrap w n) duration),
            now := t.now }, s1)

/-! ## Chains of spans -/

/-- The chain `t.Span(d_1, cb_1). … .Span(d_k, cb_k)`: each `Span` is applied to the
cursor returned by the previous one. -/
def spanChain {σ : Type} (w : Nat) :
    Timeline → List (Int × (Timeline → σ → σ)) → σ → Timeline × σ
  | t, [], s => (t, s)
  | t, (d, cb) :: rest, s =>
    spanChain w (t.Span w d [cb] s).1 rest (t.Span w d [cb] s).2

/-- The prefix sum `S_i = d_1 + … + d_i` of a list of durations, computed in the
unit type; `S_0 = 0`. -/
def prefixSum (w : Nat) (ds : List Int) (i : Nat) : Int :=
  (ds.take i).foldl (wadd w) 0

/-! ## Observing callbacks -/

/-- Record of one callback invocation: the position of the callback in the argument
list and the argument it received. -/
abbrev Call (α : Type) := Nat × α

/-- Wrap each callback of a list so that, besides doing what it does, it appends a
record of the invocation to a log.  `k` is the position of the first callback. -/
def tracedFrom {α σ : Type} (k : Nat) :
    List (α → σ → σ) → List (α → σ × List (Call α) → σ × List (Call α))
  | [] => []
  | fn :: f => (fun a st => (fn a st.1, st.2 ++ [(k, a)])) :: tracedFrom (k + 1) f

/-- The callbacks of a list, each recording its invocations under its position. -/
def traced {α σ : Type} (f : List (α → σ → σ)) :
    List (α → σ × List (Call α) → σ × List (Call α)) :=
  tracedFrom 0 f

/-! ## Once and Ratio -/

/-- The method `Once`: the receiver is returned as it is. -/
def Timeline.Once {σ : Type} (t : Timeline) (f : List (Unit → σ → σ)) (s : σ) :
    Timeline × σ :=
  (t, if t.now = t.from_ then f.foldl (fun acc fn => fn () acc) s else s)

/-- The floating-point operations used by `Ratio`: the constant `0`, the conversion
`float64(x)` of an integer, and the division. -/
structure FloatOps (F : Type) where
  zero : F
  ofInt : Int → F
  div : F → F → F

/-- The method `Ratio`. -/
def Timeline.Ratio {F : Type} (w : Nat) (ops : FloatOps F) (t : Timeline) : F :=
  if wsub w t.to_ t.from_ = 0 then ops.zero
  else ops.div (ops.ofInt (wsub w t.now t.from_)) (ops.ofInt (wsub w t.to_ t.from_))

/-- The operations of `Ratio` carried out on exact rationals. -/
def exactOps : FloatOps ℚ :=
  { zero := 0, ofInt := fun x => (x : ℚ), div := fun a b => a / b }

/-- The operations of `Ratio` on exact rationals, a division by zero giving `none`. -/
def checkedOps : FloatOps (Option ℚ) :=
  { zero := some 0
    ofInt := fun x => some (x : ℚ)
    div := fun a b =>
      match a, b with
      | some x, some y => if y = 0 then none else some (x / y)
      | _, _ => none }

/-- Rounding of a rational to an integer: to nearest, ties to even. -/
def roundHalfEven (m : ℚ) : Int :=
  if m - ⌊m⌋ < 1 / 2 then ⌊m⌋
  else if 1 / 2 < m - ⌊m⌋ then ⌊m⌋ + 1
  else if ⌊m⌋ % 2 = 0 then ⌊m⌋ else ⌊m⌋ + 1

/-- Rounding of a positive rational `q` to a 53-bit significand: with
`2^e ≤ q < 2^(e+1)`, the quotient of `q` by `2^(e-52)` lies in `[2^52, 2^53)` and is
rounded to an integer. -/
def roundPos (q : ℚ) : ℚ :=
  (roundHalfEven (q / 2 ^ (Int.log 2 q - 52)) : ℚ) * 2 ^ (Int.log 2 q - 52)

/-- Rounding of a rational to the nearest `float64`, ties to even. -/
def roundFloat64 (q : ℚ) : ℚ :=
  if q = 0 then 0 else if q < 0 then -roundPos (-q) else roundPos q

/-- The operations of `Ratio` in `float64`: the conversion rounds the integer, the
division rounds the quotient of its operands.  `Ratio` never divides by zero, and the
division is given the value `0` there. -/
def float64Ops : FloatOps ℚ :=
  { zero := 0
    ofInt := fun x => roundFloat64 (x : ℚ)
    div := fun a b => roundFloat64 (a / b) }

/-! ## Cursors of a chain -/

/-- The cursors that arise from a cursor `t0` by the operations of the package: the
cursor itself, a cursor returned by `Span`, `LoopN` or `Once` on such a cursor, and a
cursor that `Span`, `Loop` or `LoopN` on such a cursor hands to a callback (so that
operations applied inside callbacks are covered). -/
inductive Derived (w : Nat) (t0 : Timeline) : Timeline → Prop
  | start : Derived w t0 t0
  | span_ret (c : Timeline) (d : Int) : Derived w t0 c →
      Derived w t0 (c.Span w d ([] : List (Timeline → Unit → Unit)) ()).1
  | span_arg (c : Timeline) (d : Int) (e : Call Timeline) : Derived w t0 c →
      e ∈ (c.Span w d (traced [fun _ (u : Unit) => u]) ((), [])).2.2 → Derived w t0 e.2
  | loop_arg (c : Timeline) (d : Int) (r : Unit × List (Call (Int × Timeline)))
      (e : Call (Int × Timeline)) : Derived w t0 c →
      r ∈ c.Loop w d (traced [fun _ (u : Unit) => u]) ((), []) → e ∈ r.2 →
      Derived w t0 e.2.2
  | loopN_ret (c : Timeline) (d n : Int) (r : Timeline × Unit) : Derived w t0 c →
      r ∈ c.LoopN w d n ([] : List (Int × Timeline → Unit → Unit)) () → Derived w t0 r.1
  | loopN_arg (c : Timeline) (d n : Int)
      (r : Timeline × Unit × List (Call (Int × Timeline)))
      (e : Call (Int × Timeline)) : Derived w t0 c →
      r ∈ c.LoopN w d n (traced [fun _ (u : Unit) => u]) ((), []) → e ∈ r.2.2 →
      Derived w t0 e.2.2
  | once_ret (c : Timeline) : Derived w t0 c →
      Derived w t0 (c.Once ([] : List (Unit → Unit → Unit)) ()).1

/-! ## The nested example -/

/-- The chain of `Example_nested` in `example_test.go` at the time `t`, for `T = int`
(64 bits): `New(t).Span(6, f).Span(6, g)`, where `f` runs `Loop(3, …)` and `g` runs
`Span(2, …).Span(2, …).Span(2, …)` on the cursor it receives.  The print statements of
the innermost callbacks are replaced by records of their arguments; the result holds
the records of the inner loop and those of the inner spans.  `Loop` returns here, its
duration being `3`; `getD` names the state for the case of a fault. -/
def Example_nested (t : Int) :
    (Unit × List (Call (Int × Timeline))) × List (Call Timeline) :=
  (spanChain 64 (New t)
    [(6, fun c s => ((c.Loop 64 3 (traced [fun _ (u : Unit) => u]) s.1).getD s.1, s.2)),
      (6, fun c s => (spanChain 64 c ([2, 2, 2].zip
        (traced [fun _ u => u, fun _ u => u, fun _ u => u])) s).2)]
    (((), []), [])).2

/-! ## Facts about the machine integers -/

theorem two_pow_pred_add (w : Nat) (hw : 0 < w) :
    (2 : Int) ^ (w - 1) + 2 ^ (w - 1) = 2 ^ w := by
  obtain ⟨k, rfl⟩ : ∃ k, w = k + 1 := ⟨w - 1, by omega⟩
  simp only [Nat.add_sub_cancel]
  ring

theorem wrap_inRange (w : Nat) (hw : 0 < w) (x : Int) : InRange w (wrap w x) := by
  have h2 := two_pow_pred_add w hw
  have hpos : (0 : Int) < 2 ^ w := by positivity
  have h0 := Int.emod_nonneg x (ne_of_gt hpos)
  have h1 := Int.emod_lt_of_pos x hpos
  unfold InRange minT maxT wrap
  split <;> constructor <;> omega

theorem wrap_of_inRange (w : Nat) (hw : 0 < w) (x : Int) (h : InRange w x) :
    wrap w x = x := by
  have h2 := two_pow_pred_add w hw
  have hpos : (0 : Int) < 2 ^ w := by positivity
  unfold InRange minT maxT at h
  unfold wrap
  rcases le_or_lt 0 x with hx | hx
  · have : x % 2 ^ w = x := Int.emod_eq_of_lt hx (by omega)
    rw [this]; split <;> omega
  · have : x % 2 ^ w = x + 2 ^ w := by
      have h3 : (x + 2 ^ w) % 2 ^ w = x + 2 ^ w := Int.emod_eq_of_lt (by omega) (by omega)
      rw [← h3]; simp
    rw [this]; split <;> omega

theorem wrap_emod (w : Nat) (x : Int) : wrap w x % 2 ^ w = x % 2 ^ w := by
  unfold wrap
  split
  · exact Int.emod_emod_of_dvd x (dvd_refl _)
  · rw [Int.sub_emod, Int.emod_self, sub_zero, Int.emod_emod_of_dvd _ (dvd_refl _),
      Int.emod_emod_of_dvd _ (dvd_refl _)]

theorem wrap_congr (w : Nat) (x y : Int) (h : x % 2 ^ w = y % 2 ^ w) :
    wrap w x = wrap w y := by
  unfold wrap; rw [h]

theorem wrap_wrap (w : Nat) (x : Int) : wrap w (wrap w x) = wrap w x :=
  wrap_congr w _ _ (wrap_emod w x)

theorem wrap_add_left (w : Nat) (x y : Int) : wrap w (wrap w x + y) = wrap w (x + y) := by
  apply wrap_congr
  rw [Int.add_emod, wrap_emod, ← Int.add_emod]

theorem wrap_add_right (w : Nat) (x y : Int) : wrap w (x + wrap w y) = wrap w (x + y) := by
  rw [add_comm, wrap_add_left, add_comm]

theorem wrap_mul_left (w : Nat) (x y : Int) : wrap w (wrap w x * y) = wrap w (x * y) := by
  apply wrap_congr
  rw [Int.mul_emod, wrap_emod, ← Int.mul_emod]

theorem wrap_mul_right (w : Nat) (x y : Int) : wrap w (x * wrap w y) = wrap w (x * y) := by
  rw [mul_comm, wrap_mul_left, mul_comm]

/-! ## Facts about the observation of callbacks -/

theorem foldl_tracedFrom {α σ : Type} (a : α) (f : List (α → σ → σ)) :
    ∀ (k : Nat) (s : σ) (log : List (Call α)),
      (tracedFrom k f).foldl (fun acc fn => fn a acc) (s, log) =
        (f.foldl (fun acc fn => fn a acc) s,
          log ++ (List.range' k f.length).map (fun i => (i, a))) := by
  induction f with
  | nil => intro k s log; simp [tracedFrom]
  | cons fn f ih =>
    intro k s log
    simp [tracedFrom, ih, List.range'_succ]

theorem length_tracedFrom {α σ : Type} (f : List (α → σ → σ)) :
    ∀ k : Nat, (tracedFrom k f).length = f.length := by
  induction f with
  | nil => intro k; rfl
  | cons fn f ih => intro k; simp [tracedFrom, ih]

theorem foldl_traced {α σ : Type} (a : α) (f : List (α → σ → σ)) (s : σ) :
    (traced f).foldl (fun acc fn => fn a acc) (s, []) =
      (f.foldl (fun acc fn => fn a acc) s, (List.range f.length).map (fun i => (i, a))) := by
  simp [traced, foldl_tracedFrom, List.range_eq_range']

/-! ## Span -/

theorem Span_traced {σ : Type} (w : Nat) (t : Timeline) (duration : Int)
    (f : List (Timeline → σ → σ)) (s : σ) :
    (t.Span w duration (traced f) (s, [])).2 =
      if t.from_ ≤ t.now ∧ t.now < wadd w t.from_ duration then
        (f.foldl (fun acc fn => fn ⟨t.from_, wadd w t.from_ duration, t.now⟩ acc) s,
          (List.range f.length).map
            (fun i => (i, (⟨t.from_, wadd w t.from_ duration, t.now⟩ : Timeline))))
      else (s, []) := by
  unfold Timeline.Span
  by_cases h : t.from_ ≤ t.now ∧ t.now < wadd w t.from_ duration
  · simp only [h, and_self, if_true, foldl_traced]
  · simp only [h, if_false]

/-- C1: `Span` invokes callbacks exactly when `from ≤ now < from + duration` (the sum
taken in the unit type).  When it does, the callbacks at positions
`0, 1, …, len(f) - 1` are each invoked once, in that order, each with the cursor
`(from, from + duration, now)`, and the state is the one they produce in that order;
when it does not, nothing is invoked and the state is unchanged. -/
theorem Span_invokes_iff_in_window {σ : Type} (w : Nat) (t : Timeline) (duration : Int)
    (f : List (Timeline → σ → σ)) (s : σ) :
    (t.Span w duration (traced f) (s, [])).2 =
      if t.from_ ≤ t.now ∧ t.now < wadd w t.from_ duration then
        (f.foldl (fun acc fn => fn ⟨t.from_, wadd w t.from_ duration, t.now⟩ acc) s,
          (List.range f.length).map
            (fun i => (i, (⟨t.from_, wadd w t.from_ duration, t.now⟩ : Timeline))))
      else (s, []) :=
  Span_traced w t duration f s

/-- C2: whatever the callbacks and whether or not they ran, `Span` returns the cursor
with `from = to = (old from) + duration` and the same `now`; every cursor handed to a
callback has this returned `from` as its `to`. -/
theorem Span_returns_seam {σ : Type} (w : Nat) (t : Timeline) (duration : Int)
    (f : List (Timeline → σ → σ)) (s : σ) :
    (t.Span w duration f s).1 =
        ⟨wadd w t.from_ duration, wadd w t.from_ duration, t.now⟩ ∧
      ∀ c ∈ (t.Span w duration (traced f) (s, [])).2.2,
        c.2.to_ = (t.Span w duration f s).1.from_ := by
  refine ⟨rfl, ?_⟩
  intro c hc
  rw [Span_traced] at hc
  split at hc
  · simp only [List.mem_map] at hc
    obtain ⟨i, -, rfl⟩ := hc
    rfl
  · simp at hc

/-- C3: evaluation of `New(2).Span(3, a).LoopN(2, 1, b)` for `T = int` (64 bits), the
callbacks recording which operation ran them (`0` for the `Span`, `1` for the
`LoopN`): both operations of the chain invoke their callback. -/
theorem chain_Span_LoopN_both_invoke :
    ((New 2).Span 64 3 [fun _ (s : List Nat) => s ++ [0]] []).1.LoopN 64 2 1
        [fun _ s => s ++ [1]] ((New 2).Span 64 3 [fun _ (s : List Nat) => s ++ [0]] []).2 =
      some (⟨5, 5, 2⟩, [0, 1]) := by
  decide

/-- C4: evaluation of `LoopN(2, 1, cb)` on the cursor `(3, 3, 2)` for `T = int`
(64 bits): although `now < from`, the callback is invoked, with index `0` and the
cursor `(3, 5, 2)`, whose window does not contain `now` and whose `Elapsed()`
is `-1`. -/
theorem LoopN_invokes_before_from :
    (⟨3, 3, 2⟩ : Timeline).LoopN 64 2 1 (traced [fun _ (s : Unit) => s]) ((), []) =
        some (⟨5, 5, 2⟩, ((), [(0, (0, ⟨3, 5, 2⟩))])) ∧
      (⟨3, 5, 2⟩ : Timeline).Elapsed 64 = -1 := by
  decide

/-! ## Chains of spans -/

theorem spanChain_traced_log {σ : Type} (w : Nat) (now : Int) :
    ∀ (ds : List Int) (cbs : List (Timeline → σ → σ)), cbs.length = ds.length →
      ∀ (a b : Int) (k : Nat) (s : σ) (log : List (Call Timeline)),
        (spanChain w ⟨a, b, now⟩ (ds.zip (tracedFrom k cbs)) (s, log)).2.2 =
          log ++ ((List.range ds.length).filter
              (fun i => (ds.take i).foldl (wadd w) a ≤ now ∧
                now < (ds.take (i + 1)).foldl (wadd w) a)).map
            (fun i => (k + i, (⟨(ds.take i).foldl (wadd w) a,
              (ds.take (i + 1)).foldl (wadd w) a, now⟩ : Timeline))) := by
  intro ds
  induction ds with
  | nil => intro cbs _ a b k s log; simp [spanChain]
  | cons d ds ih =>
    intro cbs hlen a b k s log
    cases cbs with
    | nil => simp at hlen
    | cons cb cbs =>
      have hlen2 : cbs.length = ds.length := by simpa using hlen
      simp only [tracedFrom, List.zip_cons_cons, spanChain, Timeline.Span, List.foldl_cons,
        List.foldl_nil]
      have e := ih cbs hlen2 (wadd w a d) (wadd w a d) (k + 1)
      unfold List.zip at e
      by_cases h : a ≤ now ∧ now < wadd w a d
      · simp only [h, and_self, if_true]
        rw [e]
        simp [List.range_succ_eq_map, List.filter_map, Function.comp_def, h, Nat.add_assoc,
          Nat.add_comm 1]
      · simp only [h, if_false]
        rw [e]
        simp [List.range_succ_eq_map, List.filter_map, Function.comp_def, h, Nat.add_assoc,
          Nat.add_comm 1]

theorem spanChain_cursor {σ : Type} (w : Nat) (now : Int) :
    ∀ (ds : List Int) (cbs : List (Timeline → σ → σ)), cbs.length = ds.length →
      ∀ (a : Int) (s : σ),
        (spanChain w ⟨a, a, now⟩ (ds.zip cbs) s).1 =
          ⟨ds.foldl (wadd w) a, ds.foldl (wadd w) a, now⟩ := by
  intro ds
  induction ds with
  | nil => intro cbs _ a s; simp [spanChain]
  | cons d ds ih =>
    intro cbs hlen a s
    cases cbs with
    | nil => simp at hlen
    | cons cb cbs =>
      have hlen2 : cbs.length = ds.length := by simpa using hlen
      have e := ih cbs hlen2 (wadd w a d)
      unfold List.zip at e
      simp only [List.zip_cons_cons, spanChain, Timeline.Span, List.foldl_cons]
      rw [e]

theorem wadd_of_no_overflow (w : Nat) (hw : 0 < w) (a d : Int) (ha : minT w ≤ a)
    (hd : 0 ≤ d) (h : a + d ≤ maxT w) : wadd w a d = a + d :=
  wrap_of_inRange w hw (a + d) ⟨by omega, h⟩

theorem foldl_wadd_of_no_overflow (w : Nat) (hw : 0 < w) :
    ∀ (ds : List Int) (a : Int), (∀ d ∈ ds, 0 ≤ d) → minT w ≤ a → a + ds.sum ≤ maxT w →
      ds.foldl (wadd w) a = a + ds.sum := by
  intro ds
  induction ds with
  | nil => intro a _ _ _; simp
  | cons d ds ih =>
    intro a hnn ha hsum
    have hd : 0 ≤ d := hnn d (List.mem_cons_self _ _)
    have hnn2 : ∀ x ∈ ds, 0 ≤ x := fun x hx => hnn x (List.mem_cons_of_mem _ hx)
    have hs : 0 ≤ ds.sum := List.sum_nonneg hnn2
    simp only [List.sum_cons] at hsum
    have e : wadd w a d = a + d := wadd_of_no_overflow w hw a d ha hd (by omega)
    simp only [List.foldl_cons, List.sum_cons, e]
    rw [ih (a + d) hnn2 (by omega) (by omega)]
    ring

theorem windows_count_of_no_overflow (w : Nat) (hw : 0 < w) (now : Int) :
    ∀ (ds : List Int) (a : Int), (∀ d ∈ ds, 0 ≤ d) → minT w ≤ a → a + ds.sum ≤ maxT w →
      ((List.range ds.length).filter
          (fun i => (ds.take i).foldl (wadd w) a ≤ now ∧
            now < (ds.take (i + 1)).foldl (wadd w) a)).length =
        if a ≤ now ∧ now < a + ds.sum then 1 else 0 := by
  intro ds
  induction ds with
  | nil =>
    intro a _ _ _
    have h0 : ¬ (a ≤ now ∧ now < a) := by omega
    simp [h0]
  | cons d ds ih =>
    intro a hnn ha hsum
    have hd : 0 ≤ d := hnn d (List.mem_cons_self _ _)
    have hnn2 : ∀ x ∈ ds, 0 ≤ x := fun x hx => hnn x (List.mem_cons_of_mem _ hx)
    have hs : 0 ≤ ds.sum := List.sum_nonneg hnn2
    simp only [List.sum_cons] at hsum
    have e : wadd w a d = a + d := wadd_of_no_overflow w hw a d ha hd (by omega)
    have ih2 := ih (a + d) hnn2 (by omega) (by omega)
    simp only [List.length_cons, List.range_succ_eq_map, List.filter_cons, List.take_zero,
      List.foldl_nil, List.take_succ_cons, List.foldl_cons, e, List.filter_map,
      Function.comp_def, List.sum_cons, Nat.succ_eq_add_one]
    by_cases h1 : a ≤ now ∧ now < a + d
    · simp only [h1, and_self, decide_True, if_true, List.length_cons, List.length_map]
      rw [ih2]
      have : ¬ (a + d ≤ now ∧ now < a + d + ds.sum) := by omega
      have h3 : a ≤ now ∧ now < a + (d + ds.sum) := by omega
      simp [this, h3]
    · simp only [h1, decide_False, Bool.false_eq_true, if_false, List.length_map]
      rw [ih2]
      by_cases h2 : a + d ≤ now ∧ now < a + d + ds.sum
      · have h3 : a ≤ now ∧ now < a + (d + ds.sum) := by omega
        simp [h2, h3]
      · have h3 : ¬ (a ≤ now ∧ now < a + (d + ds.sum)) := by omega
        simp [h2, h3]

/-- C5 (as stated, refuted): for `T = int` (64 bits) the three non-negative durations
`2^63 - 1, 2^63 - 1, 3` have the prefix sums `2^63 - 1, -2, 1` in the unit type.  At
`now = 0` the sample satisfies `0 ≤ now < S_3`, and yet two callbacks are invoked, the
first with the window `[0, 2^63 - 1)` and the third with the window `[-2, 1)`. -/
theorem spanChain_overflow_two_invoked :
    (∀ d ∈ [(9223372036854775807 : Int), 9223372036854775807, 3], 0 ≤ d ∧ InRange 64 d) ∧
      ((0 : Int) ≤ 0 ∧
        (0 : Int) < prefixSum 64 [9223372036854775807, 9223372036854775807, 3] 3) ∧
      (spanChain 64 (New 0)
          ([(9223372036854775807 : Int), 9223372036854775807, 3].zip
            (traced [fun _ (s : Unit) => s, fun _ s => s, fun _ s => s])) ((), [])).2.2 =
        [(0, ⟨0, 9223372036854775807, 0⟩), (2, ⟨-2, 1, 0⟩)] := by
  decide

/-- C5 (amended): in the chain `New(now).Span(d_1, cb_1). … .Span(d_k, cb_k)`, with the
prefix sums `S_i` computed in the unit type, `cb_i` is invoked exactly when
`S_(i-1) ≤ now < S_i`, then once and with the cursor `(S_(i-1), S_i, now)` (the log
lists, in order, the positions whose window holds `now`), and the chain returns
`(S_k, S_k, now)`.  When all durations are non-negative and their sum does not exceed
the largest value of the unit type, `S_k` is that sum and the number of invocations is
one if `0 ≤ now < S_k` and zero otherwise. -/
theorem spanChain_New_windows {σ : Type} (w : Nat) (now : Int) (ds : List Int)
    (cbs : List (Timeline → σ → σ)) (hlen : cbs.length = ds.length) (s : σ) :
    (spanChain w (New now) (ds.zip (traced cbs)) (s, [])).2.2 =
        ((List.range ds.length).filter
            (fun i => prefixSum w ds i ≤ now ∧ now < prefixSum w ds (i + 1))).map
          (fun i => (i, (⟨prefixSum w ds i, prefixSum w ds (i + 1), now⟩ : Timeline))) ∧
      (spanChain w (New now) (ds.zip (traced cbs)) (s, [])).1 =
        ⟨prefixSum w ds ds.length, prefixSum w ds ds.length, now⟩ ∧
      (0 < w → (∀ d ∈ ds, 0 ≤ d) → ds.sum ≤ maxT w →
        prefixSum w ds ds.length = ds.sum ∧
          (spanChain w (New now) (ds.zip (traced cbs)) (s, [])).2.2.length =
            if 0 ≤ now ∧ now < ds.sum then 1 else 0) := by
  have hlog := spanChain_traced_log w now ds cbs hlen 0 0 0 s []
  have hlen' : (traced cbs).length = ds.length := by
    rw [← hlen]; exact length_tracedFrom cbs 0
  have hcur := spanChain_cursor w now ds (traced cbs) hlen' 0 (s, [])
  simp only [List.nil_append, Nat.zero_add] at hlog
  refine ⟨by simpa [New, traced, prefixSum] using hlog,
    by simpa [New, prefixSum] using hcur, ?_⟩
  intro hw hnn hsum
  have hmin : minT w ≤ 0 := by unfold minT; simp
  have hS := foldl_wadd_of_no_overflow w hw ds 0 hnn hmin (by simpa using hsum)
  have hcount := windows_count_of_no_overflow w hw now ds 0 hnn hmin (by simpa using hsum)
  refine ⟨by simpa [prefixSum] using hS, ?_⟩
  have e : (spanChain w (New now) (ds.zip (traced cbs)) (s, [])).2.2 = _ := hlog
  rw [e, List.length_map, hcount, zero_add]

/-- Witness of C5: the chain `New(4).Span(3, a).Span(3, b)` for `T = int`. -/
theorem spanChain_New_windows_witness :
    [fun (_ : Timeline) (s : Unit) => s, fun _ s => s].length = [(3 : Int), 3].length ∧
      (spanChain 64 (New 4)
          ([(3 : Int), 3].zip (traced [fun _ (s : Unit) => s, fun _ s => s])) ((), [])).2.2 =
        [(1, ⟨3, 6, 4⟩)] ∧
      (spanChain 64 (New 4)
          ([(3 : Int), 3].zip (traced [fun _ (s : Unit) => s, fun _ s => s])) ((), [])).1 =
        ⟨6, 6, 4⟩ ∧
      (spanChain 64 (New 4)
          ([(3 : Int), 3].zip (traced [fun _ (s : Unit) => s, fun _ s => s]))
            ((), [])).2.2.length = 1 := by
  have h := spanChain_New_windows 64 4 [3, 3] [fun _ (s : Unit) => s, fun _ s => s] rfl ()
  obtain ⟨h1, h2, h3⟩ := h
  have h4 := (h3 (by decide) (by decide) (by decide)).2
  refine ⟨rfl, ?_, ?_, ?_⟩
  · rw [h1]; decide
  · rw [h2]; decide
  · rw [h4]; decide

/-- C6: for durations `d1`, `d2` and a sample `t` with `d1 ≤ t < d1 + d2` (the sum
taken in the unit type), `New(t).Span(d1, cbA).Span(d2, cbB)` does not invoke `cbA` and
invokes `cbB` once, with the cursor `(d1, d1 + d2, t)`, whose `Elapsed()` is `t - d1`
(the difference of the unit type, which is the exact difference when `d1 ≥ 0`).  For
`d1 = d2 = 3` and `T = int`: `t = 0, 1, 2` invoke `cbA` with elapsed `0, 1, 2`,
`t = 3, 4, 5` invoke `cbB` with elapsed `0, 1, 2`, and `t = 6, 7` invoke nothing. -/
theorem two_spans_second_only {σ : Type} (w : Nat) (hw : 0 < w) (d1 d2 t : Int)
    (hd1 : InRange w d1) (ht : InRange w t) (h1 : d1 ≤ t) (h2 : t < wadd w d1 d2)
    (cbA cbB : Timeline → σ → σ) (s : σ) :
    (spanChain w (New t) ([d1, d2].zip (traced [cbA, cbB])) (s, [])).2 =
        (cbB ⟨d1, wadd w d1 d2, t⟩ s, [(1, ⟨d1, wadd w d1 d2, t⟩)]) ∧
      (⟨d1, wadd w d1 d2, t⟩ : Timeline).Elapsed w = wsub w t d1 ∧
      (0 ≤ d1 → (⟨d1, wadd w d1 d2, t⟩ : Timeline).Elapsed w = t - d1) ∧
      (List.range 8).map (fun n : Nat =>
          ((spanChain 64 (New n) ([3, 3].zip
            (traced [fun _ (u : Unit) => u, fun _ u => u])) ((), [])).2.2).map
              (fun c => (c.1, c.2.Elapsed 64))) =
        [[(0, 0)], [(0, 1)], [(0, 2)], [(1, 0)], [(1, 1)], [(1, 2)], [], []] := by
  have e1 : wadd w 0 d1 = d1 := by
    unfold wadd; rw [zero_add]; exact wrap_of_inRange w hw d1 hd1
  have hA : ¬ (0 ≤ t ∧ t < d1) := by omega
  refine ⟨?_, rfl, ?_, by decide⟩
  · simp [spanChain, Timeline.Span, New, traced, tracedFrom, e1, hA, h1, h2]
  · intro h0
    show wrap w (t - d1) = t - d1
    apply wrap_of_inRange w hw
    unfold InRange minT maxT at hd1 ht ⊢
    constructor <;> omega

/-- Witness of C6: `d1 = 3`, `d2 = 3`, `t = 4`, `T = int`. -/
theorem two_spans_second_only_witness :
    (0 < 64 ∧ InRange 64 3 ∧ InRange 64 4 ∧ (3 : Int) ≤ 4 ∧ (4 : Int) < wadd 64 3 3) ∧
      (spanChain 64 (New 4) ([3, 3].zip
          (traced [fun _ (u : Unit) => u, fun _ u => u])) ((), [])).2 =
        ((), [(1, ⟨3, wadd 64 3 3, 4⟩)]) :=
  ⟨by decide,
    (two_spans_second_only 64 (by decide) 3 3 4 (by decide) (by decide) (by decide)
      (by decide) (fun _ (u : Unit) => u) (fun _ u => u) ()).1⟩

/-! ## Loop and LoopN -/

theorem minT_le_zero (w : Nat) : minT w ≤ 0 := by
  unfold minT; simp

theorem maxT_nonneg (w : Nat) : 0 ≤ maxT w := by
  unfold maxT
  have : (0 : Int) < 2 ^ (w - 1) := by positivity
  omega

theorem tdiv_inRange (w : Nat) (a d : Int) (hd : 0 < d) (ha : InRange w a) :
    InRange w (Int.tdiv a d) := by
  have h3 := minT_le_zero w
  have h4 := maxT_nonneg w
  unfold InRange at ha ⊢
  rcases le_or_lt 0 a with h | h
  · have e : Int.tdiv a d = a / d := Int.tdiv_eq_ediv h (le_of_lt hd)
    have h1 : 0 ≤ a / d := Int.ediv_nonneg h (le_of_lt hd)
    have h2 : a / d ≤ a := Int.ediv_le_self d h
    rw [e]; constructor <;> omega
  · have e : Int.tdiv a d = -((-a) / d) := by
      rw [← Int.tdiv_eq_ediv (by omega) (le_of_lt hd), Int.neg_tdiv, neg_neg]
    have h1 : 0 ≤ (-a) / d := Int.ediv_nonneg (by omega) (le_of_lt hd)
    have h2 : (-a) / d ≤ -a := Int.ediv_le_self d (by omega)
    rw [e]; constructor <;> omega

theorem window_from (w : Nat) (a m d : Int) :
    wadd w a (wmul w m d) = wrap w (a + m * d) := by
  unfold wadd wmul; rw [wrap_add_right]

theorem window_to (w : Nat) (a m d : Int) :
    wrap w (a + wadd w m 1 * d) = wrap w (a + (m + 1) * d) := by
  rw [← wrap_add_right, wadd, wrap_mul_left, wrap_add_right]

theorem Loop_traced {σ : Type} (w : Nat) (hw : 0 < w) (t : Timeline) (duration : Int)
    (hd : 0 < duration) (f : List (Int × Timeline → σ → σ)) (s : σ) :
    t.Loop w duration (traced f) (s, []) =
      if t.now < t.from_ then some (s, [])
      else
        some (f.foldl (fun acc fn => fn (Int.tdiv (wsub w t.now t.from_) duration,
            ⟨wrap w (t.from_ + Int.tdiv (wsub w t.now t.from_) duration * duration),
              wrap w (t.from_ + (Int.tdiv (wsub w t.now t.from_) duration + 1) * duration),
              t.now⟩) acc) s,
          (List.range f.length).map (fun i => (i,
            (Int.tdiv (wsub w t.now t.from_) duration,
              (⟨wrap w (t.from_ + Int.tdiv (wsub w t.now t.from_) duration * duration),
                wrap w (t.from_ + (Int.tdiv (wsub w t.now t.from_) duration + 1) * duration),
                t.now⟩ : Timeline))))) := by
  have hq : wrap w (Int.tdiv (wsub w t.now t.from_) duration) =
      Int.tdiv (wsub w t.now t.from_) duration :=
    wrap_of_inRange w hw _ (tdiv_inRange w _ duration hd (wrap_inRange w hw _))
  unfold Timeline.Loop
  split
  · rfl
  · simp only [wdiv, ne_of_gt hd, if_false, hq, window_from, window_to, foldl_traced]

/-- C7: for `duration > 0`, `Loop` invokes nothing when `now < from`; when `now ≥ from`
it invokes the callbacks at positions `0, …, len(f) - 1` once each, in that order, each
with the index `n = (now - from) / duration` (truncated division) and the cursor
`(from + n*duration, from + (n+1)*duration, now)`, all arithmetic being that of the
unit type. -/
theorem Loop_invokes {σ : Type} (w : Nat) (hw : 0 < w) (t : Timeline) (duration : Int)
    (hd : 0 < duration) (f : List (Int × Timeline → σ → σ)) (s : σ) :
    t.Loop w duration (traced f) (s, []) =
      if t.now < t.from_ then some (s, [])
      else
        some (f.foldl (fun acc fn => fn (Int.tdiv (wsub w t.now t.from_) duration,
            ⟨wrap w (t.from_ + Int.tdiv (wsub w t.now t.from_) duration * duration),
              wrap w (t.from_ + (Int.tdiv (wsub w t.now t.from_) duration + 1) * duration),
              t.now⟩) acc) s,
          (List.range f.length).map (fun i => (i,
            (Int.tdiv (wsub w t.now t.from_) duration,
              (⟨wrap w (t.from_ + Int.tdiv (wsub w t.now t.from_) duration * duration),
                wrap w (t.from_ + (Int.tdiv (wsub w t.now t.from_) duration + 1) * duration),
                t.now⟩ : Timeline))))) :=
  Loop_traced w hw t duration hd f s

/-- Witness of C7: `Loop(3, cb)` on the cursor `(6, 6, 13)` for `T = int` invokes `cb`
once with index `2` and the cursor `(12, 15, 13)`. -/
theorem Loop_invokes_witness :
    (0 < 64 ∧ (0 : Int) < 3) ∧
      (⟨6, 6, 13⟩ : Timeline).Loop 64 3 (traced [fun _ (u : Unit) => u]) ((), []) =
        some ((), [(0, (2, ⟨12, 15, 13⟩))]) :=
  ⟨by decide,
    (Loop_invokes 64 (by decide) ⟨6, 6, 13⟩ 3 (by decide) [fun _ (u : Unit) => u] ()).trans
      (by decide)⟩

/-- C8 (as stated, refuted): for `T = int` (64 bits), `New(2^63 - 1).Loop(2, cb)`
invokes `cb` with index `2^62 - 1` and the cursor `(2^63 - 2, -2^63, 2^63 - 1)`: the end
of the window has wrapped around, and `now < c.to` does not hold. -/
theorem New_Loop_window_end_overflows :
    ((0 : Int) < 2 ∧ (0 : Int) ≤ 9223372036854775807 ∧ InRange 64 9223372036854775807) ∧
      (New 9223372036854775807).Loop 64 2 (traced [fun _ (u : Unit) => u]) ((), []) =
        some ((), [(0, (4611686018427387903,
          ⟨9223372036854775806, -9223372036854775808, 9223372036854775807⟩))]) ∧
      ¬ ((9223372036854775807 : Int) < -9223372036854775808) := by
  decide

/-- C8 (amended): for a period `p > 0` and a sample `t ≥ 0`, `New(t).Loop(p, cb)`
invokes `cb` once, with the index `t / p` and a cursor `c` with `c.from = (t / p) * p`,
`c.Elapsed() = t mod p`, `c.from ≤ t` and `0 ≤ c.Elapsed() < p`; `t < c.to` holds when
`(t / p + 1) * p` does not exceed the largest value of the unit type.  For `t < 0`
nothing is invoked.  For `p = 3`, `T = int` and `t = 0, …, 7` the indices are
`0, 0, 0, 1, 1, 1, 2, 2` and the elapsed values `0, 1, 2, 0, 1, 2, 0, 1`. -/
theorem New_Loop_index_elapsed {σ : Type} (w : Nat) (hw : 0 < w) (p t : Int) (hp : 0 < p)
    (ht : InRange w t) (cb : Int × Timeline → σ → σ) (s : σ) :
    (0 ≤ t →
        (New t).Loop w p (traced [cb]) (s, []) =
            some (cb (t / p, ⟨t / p * p, wrap w ((t / p + 1) * p), t⟩) s,
              [(0, (t / p, ⟨t / p * p, wrap w ((t / p + 1) * p), t⟩))]) ∧
          (⟨t / p * p, wrap w ((t / p + 1) * p), t⟩ : Timeline).Elapsed w = t % p ∧
          t / p * p ≤ t ∧ 0 ≤ t % p ∧ t % p < p ∧
          ((t / p + 1) * p ≤ maxT w →
            wrap w ((t / p + 1) * p) = (t / p + 1) * p ∧ t < (t / p + 1) * p)) ∧
      (t < 0 → (New t).Loop w p (traced [cb]) (s, []) = some (s, [])) ∧
      (List.range 8).map (fun n : Nat =>
          ((New n).Loop 64 3 (traced [fun _ (u : Unit) => u]) ((), [])).map
            (fun r => r.2.map (fun c => (c.2.1, c.2.2.Elapsed 64)))) =
        [some [(0, 0)], some [(0, 1)], some [(0, 2)], some [(1, 0)], some [(1, 1)],
          some [(1, 2)], some [(2, 0)], some [(2, 1)]] := by
  have hL := Loop_traced w hw (New t) p hp [cb] s
  have ht1 : minT w ≤ t := ht.1
  have ht2 : t ≤ maxT w := ht.2
  have hnow : (New t).now = t := rfl
  have hfr : (New t).from_ = 0 := rfl
  have hr : List.range 1 = [0] := rfl
  have hsub : wsub w t 0 = t := by
    unfold wsub; rw [sub_zero]; exact wrap_of_inRange w hw t ht
  simp only [hnow, hfr, hsub, zero_add, List.foldl_cons, List.foldl_nil,
    List.length_singleton, hr, List.map_cons, List.map_nil] at hL
  refine ⟨?_, ?_, by decide⟩
  · intro h0
    have hdiv : Int.tdiv t p = t / p := Int.tdiv_eq_ediv h0 (le_of_lt hp)
    have hmod := Int.emod_def t p
    have hm0 : 0 ≤ t % p := Int.emod_nonneg t (ne_of_gt hp)
    have hm1 : t % p < p := Int.emod_lt_of_pos t hp
    have hmul : t / p * p = t - t % p := by rw [hmod, mul_comm]; ring
    have hle : t % p ≤ t := by
      have := Int.ediv_nonneg h0 (le_of_lt hp)
      have : 0 ≤ t / p * p := by positivity
      omega
    have hmin := minT_le_zero w
    have hfrom : wrap w (t / p * p) = t / p * p :=
      wrap_of_inRange w hw _ ⟨by omega, by omega⟩
    refine ⟨?_, ?_, by omega, hm0, hm1, ?_⟩
    · rw [hL, if_neg (not_lt.mpr h0)]
      simp only [hdiv, hfrom]
    · show wrap w (t - t / p * p) = t % p
      rw [hmul]
      have : t - (t - t % p) = t % p := by ring
      rw [this]
      exact wrap_of_inRange w hw _ ⟨by omega, by omega⟩
    · intro hno
      refine ⟨wrap_of_inRange w hw _ ⟨?_, hno⟩, ?_⟩
      · have : 0 ≤ (t / p + 1) * p := by
          have := Int.ediv_nonneg h0 (le_of_lt hp)
          positivity
        omega
      · exact Int.lt_ediv_add_one_mul_self t hp
  · intro hneg
    rw [hL, if_pos hneg]

/-- Witness of C8: `p = 3`, `t = 7`, `T = int`. -/
theorem New_Loop_index_elapsed_witness :
    (0 < 64 ∧ (0 : Int) < 3 ∧ InRange 64 7 ∧ (0 : Int) ≤ 7) ∧
      (New 7).Loop 64 3 (traced [fun _ (u : Unit) => u]) ((), []) =
        some ((), [(0, (7 / 3, ⟨7 / 3 * 3, wrap 64 ((7 / 3 + 1) * 3), 7⟩))]) :=
  ⟨by decide,
    ((New_Loop_index_elapsed 64 (by decide) 3 7 (by decide) (by decide)
      (fun _ (u : Unit) => u) ()).1 (by decide)).1⟩

theorem seam_after (w : Nat) (a n d : Int) :
    wadd w a (wmul w (wrap w n) d) = wrap w (a + n * d) := by
  rw [window_from, ← wrap_add_right, wrap_mul_left, wrap_add_right]

theorem LoopN_traced {σ : Type} (w : Nat) (t : Timeline) (duration : Int)
    (hd : duration ≠ 0) (n : Int) (f : List (Int × Timeline → σ → σ)) (s : σ) :
    t.LoopN w duration n (traced f) (s, []) =
      some (⟨wrap w (t.from_ + n * duration), wrap w (t.from_ + n * duration), t.now⟩,
        if 0 ≤ wrap w (Int.tdiv (wsub w t.now t.from_) duration) ∧
            wrap w (Int.tdiv (wsub w t.now t.from_) duration) < wrap w n then
          (f.foldl (fun acc fn => fn (wrap w (Int.tdiv (wsub w t.now t.from_) duration),
              ⟨wrap w (t.from_ +
                  wrap w (Int.tdiv (wsub w t.now t.from_) duration) * duration),
                wrap w (t.from_ +
                  (wrap w (Int.tdiv (wsub w t.now t.from_) duration) + 1) * duration),
                t.now⟩) acc) s,
            (List.range f.length).map (fun i => (i,
              (wrap w (Int.tdiv (wsub w t.now t.from_) duration),
                (⟨wrap w (t.from_ +
                    wrap w (Int.tdiv (wsub w t.now t.from_) duration) * duration),
                  wrap w (t.from_ +
                    (wrap w (Int.tdiv (wsub w t.now t.from_) duration) + 1) * duration),
                  t.now⟩ : Timeline)))))
        else (s, [])) := by
  unfold Timeline.LoopN
  simp only [wdiv, hd, if_false]
  rw [seam_after w t.from_ n duration]
  simp only [window_from, window_to, foldl_traced]

/-- C9 (as stated, refuted): for `T = int8`, `LoopN(1, 300, cb)` on the cursor
`(0, 0, 50)` has `m = (50 - 0) / 1 = 50` and `0 ≤ m < 300`, and yet invokes nothing:
the count is converted to the unit type, `int8(300) = 44`, before it is compared. -/
theorem LoopN_count_converted :
    (InRange 8 0 ∧ InRange 8 50 ∧ InRange 8 1 ∧ (1 : Int) ≠ 0) ∧
      (0 ≤ Int.tdiv (50 - 0) 1 ∧ Int.tdiv (50 - 0) 1 < 300) ∧
      (⟨0, 0, 50⟩ : Timeline).LoopN 8 1 300 (traced [fun _ (u : Unit) => u]) ((), []) =
        some (⟨44, 44, 50⟩, ((), [])) := by
  decide

/-- C9 (amended): for `duration ≠ 0`, `LoopN` computes the quotient
`m = (now - from) / duration` of the unit type (truncated division) and invokes
callbacks exactly when `0 ≤ m < T(n)`, where `T(n)` is the count converted to the unit
type, which is `n` itself whenever `n` lies in the range of the unit type.  When it
does, the callbacks at positions `0, …, len(f) - 1` are invoked once each, in that
order, each with the index `m` and the cursor
`(from + m*duration, from + (m+1)*duration, now)`; otherwise nothing is invoked. -/
theorem LoopN_invokes_iff {σ : Type} (w : Nat) (t : Timeline) (duration : Int)
    (hd : duration ≠ 0) (n : Int) (f : List (Int × Timeline → σ → σ)) (s : σ) :
    (t.LoopN w duration n (traced f) (s, [])).map Prod.snd =
        some (if 0 ≤ wrap w (Int.tdiv (wsub w t.now t.from_) duration) ∧
            wrap w (Int.tdiv (wsub w t.now t.from_) duration) < wrap w n then
          (f.foldl (fun acc fn => fn (wrap w (Int.tdiv (wsub w t.now t.from_) duration),
              ⟨wrap w (t.from_ +
                  wrap w (Int.tdiv (wsub w t.now t.from_) duration) * duration),
                wrap w (t.from_ +
                  (wrap w (Int.tdiv (wsub w t.now t.from_) duration) + 1) * duration),
                t.now⟩) acc) s,
            (List.range f.length).map (fun i => (i,
              (wrap w (Int.tdiv (wsub w t.now t.from_) duration),
                (⟨wrap w (t.from_ +
                    wrap w (Int.tdiv (wsub w t.now t.from_) duration) * duration),
                  wrap w (t.from_ +
                    (wrap w (Int.tdiv (wsub w t.now t.from_) duration) + 1) * duration),
                  t.now⟩ : Timeline)))))
        else (s, [])) ∧
      (0 < w → InRange w n → wrap w n = n) := by
  refine ⟨?_, fun hw hn => wrap_of_inRange w hw n hn⟩
  rw [LoopN_traced w t duration hd n f s]
  rfl

/-- Witness of C9: `LoopN(4, 2, cb)` on the cursor `(0, 0, 5)` for `T = int` invokes
`cb` once with index `1` and the cursor `(4, 8, 5)`. -/
theorem LoopN_invokes_iff_witness :
    (4 : Int) ≠ 0 ∧
      ((⟨0, 0, 5⟩ : Timeline).LoopN 64 4 2 (traced [fun _ (u : Unit) => u]) ((), [])).map
          Prod.snd =
        some ((), [(0, (1, ⟨4, 8, 5⟩))]) :=
  ⟨by decide,
    ((LoopN_invokes_iff 64 ⟨0, 0, 5⟩ 4 (by decide) 2 [fun _ (u : Unit) => u] ()).1).trans
      (by decide)⟩

/-- C10: for `duration ≠ 0`, `LoopN` returns the cursor with
`from = to = (old from) + n*duration` (in the unit type) and the same `now`, whatever
the callbacks and whether or not they ran.  This `from` is the `to` that the code
computes for the window of index `n - 1`, and a cursor handed to a callback with the
index of the last repetition (the index whose successor is the count) has it as
its `to`. -/
theorem LoopN_returns_seam {σ : Type} (w : Nat) (t : Timeline) (duration : Int)
    (hd : duration ≠ 0) (n : Int) (f : List (Int × Timeline → σ → σ)) (s : σ) :
    (t.LoopN w duration n f s).map Prod.fst =
        some ⟨wrap w (t.from_ + n * duration), wrap w (t.from_ + n * duration), t.now⟩ ∧
      wadd w t.from_ (wmul w (wadd w (n - 1) 1) duration) =
        wrap w (t.from_ + n * duration) ∧
      ∀ r ∈ t.LoopN w duration n (traced f) (s, []), ∀ c ∈ r.2.2,
        c.2.1 + 1 = wrap w n → c.2.2.to_ = r.1.from_ := by
  refine ⟨?_, ?_, ?_⟩
  · unfold Timeline.LoopN
    simp only [wdiv, hd, if_false, Option.map_some']
    rw [seam_after w t.from_ n duration]
  · rw [window_from, window_to, sub_add_cancel]
  · intro r hr c hc hlast
    rw [LoopN_traced w t duration hd n f s] at hr
    simp only [Option.mem_def, Option.some.injEq] at hr
    subst hr
    simp only at hc ⊢
    split at hc
    · simp only [List.mem_map] at hc
      obtain ⟨i, -, rfl⟩ := hc
      simp only at hlast ⊢
      rw [hlast, ← wrap_add_right, wrap_mul_left, wrap_add_right]
    · simp at hc

/-- Witness of C10: `LoopN(4, 2)` on the cursor `(0, 0, 5)` for `T = int` returns
`(8, 8, 5)`. -/
theorem LoopN_returns_seam_witness :
    (4 : Int) ≠ 0 ∧
      ((⟨0, 0, 5⟩ : Timeline).LoopN 64 4 2 [fun _ (u : Unit) => u] ()).map Prod.fst =
        some ⟨8, 8, 5⟩ :=
  ⟨by decide,
    ((LoopN_returns_seam 64 ⟨0, 0, 5⟩ 4 (by decide) 2 [fun _ (u : Unit) => u] ()).1).trans
      (by decide)⟩

/-! ## Once -/

theorem wrap_zero (w : Nat) : wrap w 0 = 0 := by
  unfold wrap
  have : (0 : Int) < 2 ^ (w - 1) := by positivity
  simp [this]

theorem Once_traced {σ : Type} (t : Timeline) (f : List (Unit → σ → σ)) (s : σ) :
    t.Once (traced f) (s, []) =
      (t, if t.now = t.from_ then
          (f.foldl (fun acc fn => fn () acc) s, (List.range f.length).map (fun i => (i, ())))
        else (s, [])) := by
  unfold Timeline.Once
  by_cases h : t.now = t.from_
  · simp only [h, if_true, foldl_traced]
  · simp only [h, if_false]

/-- C12: `Once` invokes the callbacks at positions `0, …, len(f) - 1` once each, in that
order, exactly when `now == from`, and otherwise none; in both cases it returns the
receiver unchanged.  `New(t).Once(cb)` invokes `cb` once when `t = 0` and not at all
for any other `t`. -/
theorem Once_invokes_iff_now_eq_from {σ : Type} (t : Timeline) (f : List (Unit → σ → σ))
    (s : σ) (now : Int) (cb : Unit → σ → σ) :
    t.Once (traced f) (s, []) =
        (t, if t.now = t.from_ then
            (f.foldl (fun acc fn => fn () acc) s,
              (List.range f.length).map (fun i => (i, ())))
          else (s, [])) ∧
      (t.Once f s).1 = t ∧
      (New now).Once (traced [cb]) (s, []) =
        (New now, if now = 0 then (cb () s, [(0, ())]) else (s, [])) := by
  refine ⟨Once_traced t f s, rfl, ?_⟩
  rw [Once_traced]
  rfl

/-! ## Ratio -/

theorem wsub_self (w : Nat) (a : Int) : wsub w a a = 0 := by
  unfold wsub; rw [sub_self]; exact wrap_zero w

theorem Ratio_of_eq {F : Type} (w : Nat) (ops : FloatOps F) (t : Timeline)
    (h : t.to_ = t.from_) : t.Ratio w ops = ops.zero := by
  unfold Timeline.Ratio
  rw [h, wsub_self, if_pos rfl]

theorem LoopN_fst {σ : Type} (w : Nat) (t : Timeline) (duration n : Int)
    (f : List (Int × Timeline → σ → σ)) (s : σ) :
    ∀ r ∈ t.LoopN w duration n f s,
      r.1 = ⟨wadd w t.from_ (wmul w (wrap w n) duration),
        wadd w t.from_ (wmul w (wrap w n) duration), t.now⟩ := by
  intro r hr
  unfold Timeline.LoopN at hr
  split at hr
  · simp at hr
  · simp only [Option.mem_def, Option.some.injEq] at hr
    rw [← hr]

/-- C14: on a cursor with `to == from`, `Ratio()` returns the constant `0` whatever the
floating-point operations are, so without using the division: with a division that
reports a zero divisor the result is still `0`.  This covers `New(t)` and every cursor
returned by `Span` and by `LoopN`. -/
theorem Ratio_zero_of_zero_width {F σ : Type} (w : Nat) (ops : FloatOps F) (t : Timeline)
    (h : t.to_ = t.from_) :
    t.Ratio w ops = ops.zero ∧
      t.Ratio w checkedOps = some 0 ∧
      (∀ now : Int, (New now).Ratio w ops = ops.zero) ∧
      (∀ (c : Timeline) (d : Int) (f : List (Timeline → σ → σ)) (s : σ),
        (c.Span w d f s).1.Ratio w ops = ops.zero) ∧
      (∀ (c : Timeline) (d n : Int) (f : List (Int × Timeline → σ → σ)) (s : σ),
        ∀ r ∈ c.LoopN w d n f s, r.1.Ratio w ops = ops.zero) := by
  refine ⟨Ratio_of_eq w ops t h, Ratio_of_eq w checkedOps t h,
    fun now => Ratio_of_eq w ops _ rfl, fun c d f s => Ratio_of_eq w ops _ rfl, ?_⟩
  intro c d n f s r hr
  rw [LoopN_fst w c d n f s r hr]
  exact Ratio_of_eq w ops _ rfl

/-- Witness of C14: the cursor `(7, 7, 9)` for `T = int`. -/
theorem Ratio_zero_of_zero_width_witness :
    (⟨7, 7, 9⟩ : Timeline).to_ = (⟨7, 7, 9⟩ : Timeline).from_ ∧
      (⟨7, 7, 9⟩ : Timeline).Ratio 64 exactOps = 0 :=
  ⟨rfl, (Ratio_zero_of_zero_width (σ := Unit) 64 exactOps ⟨7, 7, 9⟩ rfl).1⟩

theorem wsub_zero (w : Nat) (hw : 0 < w) (a : Int) (ha : InRange w a) : wsub w a 0 = a := by
  unfold wsub; rw [sub_zero]; exact wrap_of_inRange w hw a ha

theorem Ratio_from_zero {F : Type} (w : Nat) (hw : 0 < w) (ops : FloatOps F) (d t : Int)
    (hd : InRange w d) (ht : InRange w t) (hd0 : d ≠ 0) :
    (⟨0, d, t⟩ : Timeline).Ratio w ops = ops.div (ops.ofInt t) (ops.ofInt d) := by
  unfold Timeline.Ratio
  simp only [wsub_zero w hw d hd, wsub_zero w hw t ht, hd0, if_false]

theorem Ratio_exact_table :
    (List.range 5).map (fun n : Nat => (⟨0, 5, n⟩ : Timeline).Ratio 64 exactOps) =
      [0, 1 / 5, 2 / 5, 3 / 5, 4 / 5] := by
  have h : ∀ t : Int, InRange 64 t →
      (⟨0, 5, t⟩ : Timeline).Ratio 64 exactOps = (t : ℚ) / 5 := by
    intro t ht
    rw [Ratio_from_zero 64 (by decide) exactOps 5 t (by decide) ht (by decide)]
    simp [exactOps]
  rw [show List.range 5 = [0, 1, 2, 3, 4] from rfl]
  simp only [List.map_cons, List.map_nil]
  rw [h _ (by decide), h _ (by decide), h _ (by decide), h _ (by decide), h _ (by decide)]
  norm_num

/-- C13: for `duration > 0` and `0 ≤ t < duration`, `New(t).Span(duration, cb)` invokes
`cb` once, with the cursor `(0, duration, t)`, whose `Elapsed()` is `t` and whose
`Ratio()` is the quotient of `float64(t)` by `float64(duration)`; computed on exact
rationals this quotient is `t / duration` (`0, 1/5, 2/5, 3/5, 4/5` for `duration = 5`).
For `t ≥ duration` the callback is not invoked. -/
theorem New_Span_elapsed_ratio {F σ : Type} (w : Nat) (hw : 0 < w) (ops : FloatOps F)
    (duration t : Int) (hd : InRange w duration) (ht : InRange w t)
    (cb : Timeline → σ → σ) (s : σ) :
    (0 < duration → 0 ≤ t → t < duration →
        ((New t).Span w duration (traced [cb]) (s, [])).2 =
            (cb ⟨0, duration, t⟩ s, [(0, ⟨0, duration, t⟩)]) ∧
          (⟨0, duration, t⟩ : Timeline).Elapsed w = t ∧
          (⟨0, duration, t⟩ : Timeline).Ratio w ops =
            ops.div (ops.ofInt t) (ops.ofInt duration) ∧
          (⟨0, duration, t⟩ : Timeline).Ratio w exactOps = (t : ℚ) / (duration : ℚ)) ∧
      (duration ≤ t → ((New t).Span w duration (traced [cb]) (s, [])).2 = (s, [])) ∧
      (List.range 5).map (fun n : Nat => (⟨0, 5, n⟩ : Timeline).Ratio 64 exactOps) =
        [0, 1 / 5, 2 / 5, 3 / 5, 4 / 5] := by
  have e : wadd w 0 duration = duration := by
    unfold wadd; rw [zero_add]; exact wrap_of_inRange w hw duration hd
  have hS := Span_traced w (New t) duration [cb] s
  have hnow : (New t).now = t := rfl
  have hfr : (New t).from_ = 0 := rfl
  simp only [hnow, hfr, e, List.foldl_cons, List.foldl_nil, List.length_singleton,
    show List.range 1 = [0] from rfl, List.map_cons, List.map_nil] at hS
  refine ⟨?_, ?_, Ratio_exact_table⟩
  · intro h0 h1 h2
    refine ⟨?_, wsub_zero w hw t ht, Ratio_from_zero w hw ops duration t hd ht (ne_of_gt h0),
      ?_⟩
    · rw [hS, if_pos ⟨h1, h2⟩]
    · rw [Ratio_from_zero w hw exactOps duration t hd ht (ne_of_gt h0)]
      rfl
  · intro h
    rw [hS, if_neg (by omega)]

/-- Witness of C13: `duration = 5`, `t = 3`, `T = int`. -/
theorem New_Span_elapsed_ratio_witness :
    (0 < 64 ∧ InRange 64 5 ∧ InRange 64 3 ∧ (0 : Int) < 5 ∧ (0 : Int) ≤ 3 ∧ (3 : Int) < 5) ∧
      ((New 3).Span 64 5 (traced [fun _ (u : Unit) => u]) ((), [])).2 =
        ((), [(0, ⟨0, 5, 3⟩)]) ∧
      (⟨0, 5, 3⟩ : Timeline).Ratio 64 exactOps = ((3 : Int) : ℚ) / ((5 : Int) : ℚ) :=
  ⟨by decide,
    ((New_Span_elapsed_ratio 64 (by decide) exactOps 5 3 (by decide) (by decide)
      (fun _ (u : Unit) => u) ()).1 (by decide) (by decide) (by decide)).1,
    ((New_Span_elapsed_ratio (σ := Unit) 64 (by decide) exactOps 5 3 (by decide) (by decide)
      (fun _ u => u) ()).1 (by decide) (by decide) (by decide)).2.2.2⟩

theorem wrap_sub_left (w : Nat) (x y : Int) : wrap w (wrap w x - y) = wrap w (x - y) := by
  rw [sub_eq_add_neg, wrap_add_left, ← sub_eq_add_neg]

theorem wrap_sub_right (w : Nat) (x y : Int) : wrap w (x - wrap w y) = wrap w (x - y) := by
  apply wrap_congr
  rw [Int.sub_emod, wrap_emod, ← Int.sub_emod]

theorem wrap_of_overflow (w : Nat) (hw : 0 < w) (x : Int) (h : InRange w (x - 2 ^ w)) :
    wrap w x = x - 2 ^ w := by
  have e : wrap w x = wrap w (x - 2 ^ w) := by
    apply wrap_congr
    have := Int.add_mul_emod_self (a := x) (b := -1) (c := 2 ^ w)
    rw [← this]
    congr 1
    ring
  rw [e]
  exact wrap_of_inRange w hw _ h

theorem wadd_of_window (w : Nat) (hw : 0 < w) (a d now : Int) (ha : InRange w a)
    (hd : InRange w d) (hd0 : 0 ≤ d) (h1 : a ≤ now) (h2 : now < wadd w a d) :
    wadd w a d = a + d := by
  have h2p := two_pow_pred_add w hw
  have ha1 : minT w ≤ a := ha.1
  have ha2 : a ≤ maxT w := ha.2
  have hd2 : d ≤ maxT w := hd.2
  rcases le_or_lt (a + d) (maxT w) with h | h
  · exact wrap_of_inRange w hw _ ⟨by omega, h⟩
  · exfalso
    have e : wadd w a d = a + d - 2 ^ w := by
      apply wrap_of_overflow w hw
      unfold InRange minT maxT at *
      constructor <;> omega
    unfold minT maxT at *
    omega

/-! ## Rounding to float64 -/

theorem roundHalfEven_bounds (m : ℚ) :
    ⌊m⌋ ≤ roundHalfEven m ∧ roundHalfEven m ≤ ⌊m⌋ + 1 := by
  unfold roundHalfEven
  split_ifs <;> constructor <;> omega

theorem roundHalfEven_intCast (n : Int) : roundHalfEven (n : ℚ) = n := by
  unfold roundHalfEven
  simp

theorem roundHalfEven_mono {a b : ℚ} (h : a ≤ b) : roundHalfEven a ≤ roundHalfEven b := by
  have hf : ⌊a⌋ ≤ ⌊b⌋ := Int.floor_mono h
  rcases hf.lt_or_eq with hlt | heq
  · have h1 := (roundHalfEven_bounds a).2
    have h2 := (roundHalfEven_bounds b).1
    omega
  · unfold roundHalfEven
    rw [heq]
    have hab : a - (⌊b⌋ : ℚ) ≤ b - (⌊b⌋ : ℚ) := by linarith
    split_ifs <;> first | omega | (exfalso; linarith)

theorem roundPos_bounds (q : ℚ) (hq : 0 < q) :
    (2 : ℚ) ^ Int.log 2 q ≤ roundPos q ∧ roundPos q ≤ 2 ^ (Int.log 2 q + 1) := by
  have hu : (0 : ℚ) < 2 ^ (Int.log 2 q - 52) := by positivity
  have hlo : (2 : ℚ) ^ Int.log 2 q ≤ q := by
    have := Int.zpow_log_le_self (b := 2) (by norm_num) hq
    simpa using this
  have hhi : q < (2 : ℚ) ^ (Int.log 2 q + 1) := by
    have := Int.lt_zpow_succ_log_self (b := 2) (by norm_num) q
    simpa using this
  have e1 : (2 : ℚ) ^ Int.log 2 q = 2 ^ (52 : ℕ) * 2 ^ (Int.log 2 q - 52) := by
    rw [← zpow_natCast, ← zpow_add₀ (by norm_num : (2 : ℚ) ≠ 0)]
    congr 1
    push_cast
    ring
  have e2 : (2 : ℚ) ^ (Int.log 2 q + 1) = 2 ^ (53 : ℕ) * 2 ^ (Int.log 2 q - 52) := by
    rw [← zpow_natCast, ← zpow_add₀ (by norm_num : (2 : ℚ) ≠ 0)]
    congr 1
    push_cast
    ring
  have hm1 : ((2 ^ 52 : Int) : ℚ) ≤ q / 2 ^ (Int.log 2 q - 52) := by
    rw [le_div_iff₀ hu, show ((2 ^ 52 : Int) : ℚ) = 2 ^ (52 : ℕ) from by norm_num, ← e1]
    exact hlo
  have hm2 : q / 2 ^ (Int.log 2 q - 52) ≤ ((2 ^ 53 : Int) : ℚ) := by
    rw [div_le_iff₀ hu, show ((2 ^ 53 : Int) : ℚ) = 2 ^ (53 : ℕ) from by norm_num, ← e2]
    exact le_of_lt hhi
  have h1 : (2 ^ 52 : Int) ≤ roundHalfEven (q / 2 ^ (Int.log 2 q - 52)) := by
    have := roundHalfEven_mono hm1
    rwa [roundHalfEven_intCast] at this
  have h2 : roundHalfEven (q / 2 ^ (Int.log 2 q - 52)) ≤ (2 ^ 53 : Int) := by
    have := roundHalfEven_mono hm2
    rwa [roundHalfEven_intCast] at this
  have h1q : ((2 : ℚ) ^ (52 : ℕ)) ≤ (roundHalfEven (q / 2 ^ (Int.log 2 q - 52)) : ℚ) := by
    exact_mod_cast h1
  have h2q : (roundHalfEven (q / 2 ^ (Int.log 2 q - 52)) : ℚ) ≤ ((2 : ℚ) ^ (53 : ℕ)) := by
    exact_mod_cast h2
  unfold roundPos
  rw [e1, e2]
  exact ⟨mul_le_mul_of_nonneg_right h1q (le_of_lt hu),
    mul_le_mul_of_nonneg_right h2q (le_of_lt hu)⟩

theorem roundPos_pos (q : ℚ) (hq : 0 < q) : 0 < roundPos q :=
  lt_of_lt_of_le (by positivity) (roundPos_bounds q hq).1

theorem roundPos_mono {a b : ℚ} (ha : 0 < a) (h : a ≤ b) : roundPos a ≤ roundPos b := by
  have hb : 0 < b := lt_of_lt_of_le ha h
  have hlog : Int.log 2 a ≤ Int.log 2 b := Int.log_mono_right ha h
  rcases hlog.lt_or_eq with hlt | heq
  · have h1 := (roundPos_bounds a ha).2
    have h2 := (roundPos_bounds b hb).1
    have h3 : (2 : ℚ) ^ (Int.log 2 a + 1) ≤ 2 ^ Int.log 2 b :=
      zpow_le_zpow_right₀ (by norm_num) (by omega)
    linarith
  · unfold roundPos
    rw [heq]
    have hu : (0 : ℚ) < 2 ^ (Int.log 2 b - 52) := by positivity
    have hm : a / 2 ^ (Int.log 2 b - 52) ≤ b / 2 ^ (Int.log 2 b - 52) :=
      div_le_div_of_nonneg_right h (le_of_lt hu)
    have := roundHalfEven_mono hm
    exact mul_le_mul_of_nonneg_right (by exact_mod_cast this) (le_of_lt hu)

theorem roundPos_zpow (z : Int) : roundPos ((2 : ℚ) ^ z) = 2 ^ z := by
  have hl : Int.log 2 ((2 : ℚ) ^ z) = z := by
    have := Int.log_zpow (R := ℚ) (b := 2) (by norm_num) z
    simpa using this
  unfold roundPos
  rw [hl]
  have e : (2 : ℚ) ^ z / 2 ^ (z - 52) = ((2 ^ 52 : Int) : ℚ) := by
    rw [← zpow_sub₀ (by norm_num : (2 : ℚ) ≠ 0)]
    have : z - (z - 52) = (52 : ℕ) := by push_cast; ring
    rw [this, zpow_natCast]
    norm_num
  rw [e, roundHalfEven_intCast, show ((2 ^ 52 : Int) : ℚ) = 2 ^ (52 : ℕ) from by norm_num,
    ← zpow_natCast, ← zpow_add₀ (by norm_num : (2 : ℚ) ≠ 0)]
  congr 1
  push_cast
  ring

theorem roundFloat64_of_pos (q : ℚ) (hq : 0 < q) : roundFloat64 q = roundPos q := by
  unfold roundFloat64
  rw [if_neg (ne_of_gt hq), if_neg (not_lt.mpr (le_of_lt hq))]

theorem roundFloat64_neg (q : ℚ) : roundFloat64 (-q) = -roundFloat64 q := by
  unfold roundFloat64
  rcases lt_trichotomy q 0 with h | h | h
  · rw [if_neg (by linarith), if_neg (by linarith), if_neg (ne_of_lt h), if_pos h, neg_neg]
  · simp [h]
  · rw [if_neg (by linarith), if_pos (by linarith), if_neg (ne_of_gt h),
      if_neg (by linarith), neg_neg]

theorem roundFloat64_zpow (z : Int) : roundFloat64 ((2 : ℚ) ^ z) = 2 ^ z := by
  rw [roundFloat64_of_pos _ (by positivity), roundPos_zpow]

theorem roundFloat64_one : roundFloat64 1 = 1 := by
  have := roundFloat64_zpow 0
  simpa using this

theorem roundFloat64_bounds (q : ℚ) (h0 : 0 ≤ q) (h1 : q ≤ 1) :
    0 ≤ roundFloat64 q ∧ roundFloat64 q ≤ 1 := by
  rcases h0.lt_or_eq with hpos | hz
  · rw [roundFloat64_of_pos q hpos]
    refine ⟨le_of_lt (roundPos_pos q hpos), ?_⟩
    have := roundPos_mono hpos h1
    rwa [← roundFloat64_of_pos 1 (by norm_num), roundFloat64_one] at this
  · rw [← hz]
    simp [roundFloat64]

theorem float64_quotient_bounds (num den : Int) (h0 : 0 ≤ num) (h1 : num < den) :
    0 ≤ roundFloat64 (roundFloat64 (num : ℚ) / roundFloat64 (den : ℚ)) ∧
      roundFloat64 (roundFloat64 (num : ℚ) / roundFloat64 (den : ℚ)) ≤ 1 := by
  have hden : (0 : ℚ) < (den : ℚ) := by exact_mod_cast (by omega : 0 < den)
  have hB : 0 < roundFloat64 (den : ℚ) := by
    rw [roundFloat64_of_pos _ hden]; exact roundPos_pos _ hden
  have hle : (num : ℚ) ≤ (den : ℚ) := by exact_mod_cast (le_of_lt h1)
  apply roundFloat64_bounds
  · rcases h0.lt_or_eq with hpos | hz
    · have hn : (0 : ℚ) < (num : ℚ) := by exact_mod_cast hpos
      rw [roundFloat64_of_pos _ hn]
      exact div_nonneg (le_of_lt (roundPos_pos _ hn)) (le_of_lt hB)
    · rw [← hz]
      simp [roundFloat64]
  · rw [div_le_one hB]
    rcases h0.lt_or_eq with hpos | hz
    · have hn : (0 : ℚ) < (num : ℚ) := by exact_mod_cast hpos
      rw [roundFloat64_of_pos _ hn, roundFloat64_of_pos _ hden]
      exact roundPos_mono hn hle
    · rw [← hz]
      simp only [Int.cast_zero]
      rw [show roundFloat64 0 = 0 from by simp [roundFloat64]]
      exact le_of_lt hB

theorem roundFloat64_tie :
    roundFloat64 (9007199254740993 : ℚ) = 9007199254740992 := by
  have hl : Int.log 2 (9007199254740993 : ℚ) = 53 := by
    have h := Int.log_natCast (R := ℚ) 2 9007199254740993
    have hn : Nat.log 2 9007199254740993 = 53 :=
      Nat.log_eq_of_pow_le_of_lt_pow (by norm_num) (by norm_num)
    rw [hn] at h
    exact_mod_cast h
  rw [roundFloat64_of_pos _ (by norm_num)]
  unfold roundPos
  rw [hl]
  have hm : (9007199254740993 : ℚ) / 2 ^ ((53 : Int) - 52) = 9007199254740993 / 2 := by
    norm_num
  rw [hm]
  have hfl : ⌊(9007199254740993 / 2 : ℚ)⌋ = 4503599627370496 := by
    rw [Int.floor_eq_iff]
    constructor <;> norm_num
  have hr : roundHalfEven (9007199254740993 / 2 : ℚ) = 4503599627370496 := by
    unfold roundHalfEven
    rw [hfl]
    norm_num
  rw [hr]
  norm_num

/-! ## The operands of Ratio -/

theorem Ratio_operands {F : Type} (w : Nat) (ops : FloatOps F) (t : Timeline)
    (num den : Int) (hden : wsub w t.to_ t.from_ = den) (hnum : wsub w t.now t.from_ = num)
    (h : den ≠ 0) : t.Ratio w ops = ops.div (ops.ofInt num) (ops.ofInt den) := by
  unfold Timeline.Ratio
  rw [hden, hnum, if_neg h]

theorem Ratio_float64_bounds (w : Nat) (t : Timeline) (num den : Int)
    (hden : wsub w t.to_ t.from_ = den) (hnum : wsub w t.now t.from_ = num)
    (h0 : 0 ≤ num) (h1 : num < den) :
    0 ≤ t.Ratio w float64Ops ∧ t.Ratio w float64Ops ≤ 1 := by
  rw [Ratio_operands w float64Ops t num den hden hnum (by omega)]
  exact float64_quotient_bounds num den h0 h1

theorem operands_in_window (w : Nat) (hw : 0 < w) (t : Timeline)
    (h1 : t.from_ ≤ t.now) (h2 : t.now < t.to_) (h3 : t.to_ - t.from_ ≤ maxT w) :
    wsub w t.to_ t.from_ = t.to_ - t.from_ ∧ wsub w t.now t.from_ = t.now - t.from_ := by
  have hmin := minT_le_zero w
  exact ⟨wrap_of_inRange w hw _ ⟨by omega, h3⟩, wrap_of_inRange w hw _ ⟨by omega, by omega⟩⟩

theorem operands_Span_arg {σ : Type} (w : Nat) (hw : 0 < w) (c : Timeline) (d : Int)
    (hf : InRange w c.from_) (hd : InRange w d) (hd0 : 0 ≤ d)
    (f : List (Timeline → σ → σ)) (s : σ) :
    ∀ e ∈ (c.Span w d (traced f) (s, [])).2.2,
      wsub w e.2.to_ e.2.from_ = d ∧ wsub w e.2.now e.2.from_ = c.now - c.from_ ∧
        0 ≤ c.now - c.from_ ∧ c.now - c.from_ < d := by
  intro e he
  rw [Span_traced] at he
  split at he
  · rename_i hwin
    simp only [List.mem_map] at he
    obtain ⟨i, -, rfl⟩ := he
    have e1 := wadd_of_window w hw c.from_ d c.now hf hd hd0 hwin.1 hwin.2
    have hd2 : d ≤ maxT w := hd.2
    have hops := operands_in_window w hw ⟨c.from_, wadd w c.from_ d, c.now⟩ hwin.1 hwin.2
      (by show wadd w c.from_ d - c.from_ ≤ maxT w; omega)
    have hlt : c.now < wadd w c.from_ d := hwin.2
    have hge : c.from_ ≤ c.now := hwin.1
    refine ⟨?_, hops.2, by omega, by omega⟩
    have := hops.1
    simp only at this ⊢
    rw [this, e1]
    ring
  · simp at he

theorem operands_Loop_arg {σ : Type} (w : Nat) (hw : 0 < w) (c : Timeline) (d : Int)
    (hd : InRange w d) (hd0 : 0 < d)
    (h2 : c.now - c.from_ ≤ maxT w) (f : List (Int × Timeline → σ → σ)) (s : σ) :
    ∀ r ∈ c.Loop w d (traced f) (s, []), ∀ e ∈ r.2,
      wsub w e.2.2.to_ e.2.2.from_ = d ∧
        wsub w e.2.2.now e.2.2.from_ = (c.now - c.from_) % d ∧
        0 ≤ (c.now - c.from_) % d ∧ (c.now - c.from_) % d < d := by
  intro r hr e he
  rcases lt_or_le c.now c.from_ with hlt | h1
  · rw [Loop_traced w hw c d hd0 f s, if_pos hlt] at hr
    simp only [Option.mem_def, Option.some.injEq] at hr
    subst hr
    simp at he
  rw [Loop_traced w hw c d hd0 f s, if_neg (not_lt.mpr h1)] at hr
  simp only [Option.mem_def, Option.some.injEq] at hr
  subst hr
  simp only [List.mem_map] at he
  obtain ⟨i, -, rfl⟩ := he
  have hmin := minT_le_zero w
  have hd2 : d ≤ maxT w := hd.2
  have ea : wsub w c.now c.from_ = c.now - c.from_ :=
    wrap_of_inRange w hw _ ⟨by omega, h2⟩
  have hdiv : Int.tdiv (c.now - c.from_) d = (c.now - c.from_) / d :=
    Int.tdiv_eq_ediv (by omega) (le_of_lt hd0)
  have hm0 : 0 ≤ (c.now - c.from_) % d := Int.emod_nonneg _ (ne_of_gt hd0)
  have hm1 : (c.now - c.from_) % d < d := Int.emod_lt_of_pos _ hd0
  have hmod := Int.emod_def (c.now - c.from_) d
  have eden : wsub w (wrap w (c.from_ + ((c.now - c.from_) / d + 1) * d))
      (wrap w (c.from_ + (c.now - c.from_) / d * d)) = d := by
    unfold wsub
    rw [wrap_sub_left, wrap_sub_right]
    have : c.from_ + ((c.now - c.from_) / d + 1) * d -
        (c.from_ + (c.now - c.from_) / d * d) = d := by ring
    rw [this]
    exact wrap_of_inRange w hw d hd
  have enum : wsub w c.now (wrap w (c.from_ + (c.now - c.from_) / d * d)) =
      (c.now - c.from_) % d := by
    unfold wsub
    rw [wrap_sub_right]
    have : c.now - (c.from_ + (c.now - c.from_) / d * d) = (c.now - c.from_) % d := by
      rw [hmod]; ring
    rw [this]
    exact wrap_of_inRange w hw _ ⟨by omega, by omega⟩
  simp only [ea, hdiv]
  exact ⟨eden, enum, hm0, hm1⟩

/-- C15 (as stated, refuted), for `T = int` (64 bits).  The cursor
`(-2^63, 2^63 - 1, 0)`, which `New(0).Span(-2^63).Span(-1, cb)` hands to `cb`, is in its
own window, but `now - from` and `to - from` overflow: `Ratio()` divides `-2^63` by
`-1` and is `2^63`.  With non-negative durations only,
`New(2^63 - 1).Span(2^63 - 1).Span(1).Loop(2, cb)` hands `cb` the cursor
`(-2^63, -2^63 + 2, 2^63 - 1)`, on which `Ratio()` divides `-1` by `2` and is `-1/2`.
Without any overflow, `New(2^53).Span(2^53 + 1, cb)` hands `cb` the in-window cursor
`(0, 2^53 + 1, 2^53)`, on which the conversion rounds `2^53 + 1` to `2^53` and
`Ratio()` is exactly `1`. -/
theorem Ratio_outside_unit_interval :
    (((New 0).Span 64 (-9223372036854775808) ([] : List (Timeline → Unit → Unit)) ()).1.Span
          64 (-1) (traced [fun _ (u : Unit) => u]) ((), [])).2.2 =
        [(0, ⟨-9223372036854775808, 9223372036854775807, 0⟩)] ∧
      ((-9223372036854775808 : Int) ≤ 0 ∧ (0 : Int) < 9223372036854775807) ∧
      (∀ (F : Type) (ops : FloatOps F),
        (⟨-9223372036854775808, 9223372036854775807, 0⟩ : Timeline).Ratio 64 ops =
          ops.div (ops.ofInt (-9223372036854775808)) (ops.ofInt (-1))) ∧
      (⟨-9223372036854775808, 9223372036854775807, 0⟩ : Timeline).Ratio 64 float64Ops =
        9223372036854775808 ∧
      (((New 9223372036854775807).Span 64 9223372036854775807
            ([] : List (Timeline → Unit → Unit)) ()).1.Span 64 1
            ([] : List (Timeline → Unit → Unit)) ()).1.Loop 64 2
          (traced [fun _ (u : Unit) => u]) ((), []) =
        some ((), [(0, (0, ⟨-9223372036854775808, -9223372036854775806,
          9223372036854775807⟩))]) ∧
      (∀ (F : Type) (ops : FloatOps F),
        (⟨-9223372036854775808, -9223372036854775806, 9223372036854775807⟩ :
            Timeline).Ratio 64 ops = ops.div (ops.ofInt (-1)) (ops.ofInt 2)) ∧
      (⟨-9223372036854775808, -9223372036854775806, 9223372036854775807⟩ :
          Timeline).Ratio 64 float64Ops = -1 / 2 ∧
      ((New 9007199254740992).Span 64 9007199254740993 (traced [fun _ (u : Unit) => u])
          ((), [])).2.2 = [(0, ⟨0, 9007199254740993, 9007199254740992⟩)] ∧
      ((0 : Int) ≤ 9007199254740992 ∧ (9007199254740992 : Int) < 9007199254740993 ∧
        (9007199254740993 : Int) - 0 ≤ maxT 64) ∧
      (⟨0, 9007199254740993, 9007199254740992⟩ : Timeline).Ratio 64 float64Ops = 1 := by
  have o1 : ∀ (F : Type) (ops : FloatOps F),
      (⟨-9223372036854775808, 9223372036854775807, 0⟩ : Timeline).Ratio 64 ops =
        ops.div (ops.ofInt (-9223372036854775808)) (ops.ofInt (-1)) :=
    fun F ops => Ratio_operands 64 ops _ _ _ (by decide) (by decide) (by decide)
  have o2 : ∀ (F : Type) (ops : FloatOps F),
      (⟨-9223372036854775808, -9223372036854775806, 9223372036854775807⟩ :
          Timeline).Ratio 64 ops = ops.div (ops.ofInt (-1)) (ops.ofInt 2) :=
    fun F ops => Ratio_operands 64 ops _ _ _ (by decide) (by decide) (by decide)
  have o3 : (⟨0, 9007199254740993, 9007199254740992⟩ : Timeline).Ratio 64 float64Ops =
      float64Ops.div (float64Ops.ofInt 9007199254740992)
        (float64Ops.ofInt 9007199254740993) :=
    Ratio_operands 64 float64Ops _ _ _ (by decide) (by decide) (by decide)
  have p63 : roundFloat64 (9223372036854775808 : ℚ) = 9223372036854775808 := by
    have h := roundFloat64_zpow 63
    norm_num at h
    exact h
  have p53 : roundFloat64 (9007199254740992 : ℚ) = 9007199254740992 := by
    have h := roundFloat64_zpow 53
    norm_num at h
    exact h
  have p1 : roundFloat64 (2 : ℚ) = 2 := by
    have h := roundFloat64_zpow 1
    norm_num at h
    exact h
  have ph : roundFloat64 (1 / 2 : ℚ) = 1 / 2 := by
    have h := roundFloat64_zpow (-1)
    norm_num at h
    norm_num
    exact h
  refine ⟨by decide, by decide, o1, ?_, by decide, o2, ?_, by decide, by decide, ?_⟩
  · rw [o1]
    show roundFloat64 (roundFloat64 ((-9223372036854775808 : Int) : ℚ) /
      roundFloat64 ((-1 : Int) : ℚ)) = 9223372036854775808
    have e1 : ((-9223372036854775808 : Int) : ℚ) = -(9223372036854775808 : ℚ) := by
      norm_num
    have e2 : ((-1 : Int) : ℚ) = -(1 : ℚ) := by norm_num
    rw [e1, e2, roundFloat64_neg, roundFloat64_neg, p63, roundFloat64_one]
    norm_num
    exact p63
  · rw [o2]
    show roundFloat64 (roundFloat64 ((-1 : Int) : ℚ) / roundFloat64 ((2 : Int) : ℚ)) = -1 / 2
    have e1 : ((-1 : Int) : ℚ) = -(1 : ℚ) := by norm_num
    have e2 : ((2 : Int) : ℚ) = (2 : ℚ) := by norm_num
    rw [e1, e2, roundFloat64_neg, roundFloat64_one, p1]
    have e3 : (-1 : ℚ) / 2 = -(1 / 2) := by norm_num
    rw [e3, roundFloat64_neg, ph]
  · rw [o3]
    show roundFloat64 (roundFloat64 ((9007199254740992 : Int) : ℚ) /
      roundFloat64 ((9007199254740993 : Int) : ℚ)) = 1
    have e1 : ((9007199254740992 : Int) : ℚ) = (9007199254740992 : ℚ) := by norm_num
    have e2 : ((9007199254740993 : Int) : ℚ) = (9007199254740993 : ℚ) := by norm_num
    rw [e1, e2, p53, roundFloat64_tie]
    norm_num
    exact roundFloat64_one

/-- C15 (amended): on every cursor that is in its own window, `from ≤ now < to`, and
whose extent `to - from` does not exceed the largest value of the unit type, `Ratio()`
is the `float64` quotient of the integers `now - from` and `to - from`, which satisfy
`0 ≤ now - from < to - from`, so that their exact quotient lies in `[0, 1)`; the value
`Ratio()` returns, rounded twice, satisfies `0 ≤ Ratio() ≤ 1`.  The same holds on every
cursor handed to a callback by `Span` with a non-negative duration (operands
`now - from` and `duration`), and on every cursor handed to a callback by `Loop` with a
positive duration when `now - from` does not exceed the largest value of the unit type
(operands `(now - from) % duration` and `duration`). -/
theorem Ratio_in_unit_interval {σ : Type} (w : Nat) (hw : 0 < w) :
    (∀ t : Timeline, t.from_ ≤ t.now → t.now < t.to_ → t.to_ - t.from_ ≤ maxT w →
        (∀ (F : Type) (ops : FloatOps F), t.Ratio w ops =
          ops.div (ops.ofInt (t.now - t.from_)) (ops.ofInt (t.to_ - t.from_))) ∧
          (0 ≤ t.now - t.from_ ∧ t.now - t.from_ < t.to_ - t.from_) ∧
          (0 ≤ t.Ratio w float64Ops ∧ t.Ratio w float64Ops ≤ 1)) ∧
      (∀ (c : Timeline) (d : Int) (f : List (Timeline → σ → σ)) (s : σ),
        InRange w c.from_ → InRange w d → 0 ≤ d →
          ∀ e ∈ (c.Span w d (traced f) (s, [])).2.2,
            (∀ (F : Type) (ops : FloatOps F), e.2.Ratio w ops =
              ops.div (ops.ofInt (c.now - c.from_)) (ops.ofInt d)) ∧
              (0 ≤ c.now - c.from_ ∧ c.now - c.from_ < d) ∧
              (0 ≤ e.2.Ratio w float64Ops ∧ e.2.Ratio w float64Ops ≤ 1)) ∧
      (∀ (c : Timeline) (d : Int) (f : List (Int × Timeline → σ → σ)) (s : σ),
        InRange w d → 0 < d → c.now - c.from_ ≤ maxT w →
          ∀ r ∈ c.Loop w d (traced f) (s, []), ∀ e ∈ r.2,
            (∀ (F : Type) (ops : FloatOps F), e.2.2.Ratio w ops =
              ops.div (ops.ofInt ((c.now - c.from_) % d)) (ops.ofInt d)) ∧
              (0 ≤ (c.now - c.from_) % d ∧ (c.now - c.from_) % d < d) ∧
              (0 ≤ e.2.2.Ratio w float64Ops ∧ e.2.2.Ratio w float64Ops ≤ 1)) := by
  refine ⟨?_, ?_, ?_⟩
  · intro t h1 h2 h3
    obtain ⟨hden, hnum⟩ := operands_in_window w hw t h1 h2 h3
    exact ⟨fun F ops => Ratio_operands w ops t _ _ hden hnum (by omega),
      ⟨by omega, by omega⟩,
      Ratio_float64_bounds w t _ _ hden hnum (by omega) (by omega)⟩
  · intro c d f s hf hd hd0 e he
    obtain ⟨hden, hnum, h0, h1⟩ := operands_Span_arg w hw c d hf hd hd0 f s e he
    exact ⟨fun F ops => Ratio_operands w ops e.2 _ _ hden hnum (by omega), ⟨h0, h1⟩,
      Ratio_float64_bounds w e.2 _ _ hden hnum h0 h1⟩
  · intro c d f s hd hd0 h2 r hr e he
    obtain ⟨hden, hnum, h0, h1⟩ := operands_Loop_arg w hw c d hd hd0 h2 f s r hr e he
    exact ⟨fun F ops => Ratio_operands w ops e.2.2 _ _ hden hnum (by omega), ⟨h0, h1⟩,
      Ratio_float64_bounds w e.2.2 _ _ hden hnum h0 h1⟩

/-- Witness of C15: the cursor `(3, 6, 4)` for `T = int`. -/
theorem Ratio_in_unit_interval_witness :
    (0 < 64 ∧ (3 : Int) ≤ 4 ∧ (4 : Int) < 6 ∧ (6 : Int) - 3 ≤ maxT 64) ∧
      0 ≤ (⟨3, 6, 4⟩ : Timeline).Ratio 64 float64Ops ∧
      (⟨3, 6, 4⟩ : Timeline).Ratio 64 float64Ops ≤ 1 :=
  ⟨by decide,
    ((Ratio_in_unit_interval (σ := Unit) 64 (by decide)).1 ⟨3, 6, 4⟩ (by decide) (by decide)
      (by decide)).2.2⟩

/-! ## Cursors handed to callbacks -/

theorem Span_args {σ : Type} (w : Nat) (c : Timeline) (d : Int)
    (f : List (Timeline → σ → σ)) (s : σ) :
    ∀ e ∈ (c.Span w d (traced f) (s, [])).2.2,
      e.2 = ⟨c.from_, wadd w c.from_ d, c.now⟩ ∧ c.from_ ≤ c.now ∧
        c.now < wadd w c.from_ d := by
  intro e he
  rw [Span_traced] at he
  split at he
  · rename_i hwin
    simp only [List.mem_map] at he
    obtain ⟨i, -, rfl⟩ := he
    exact ⟨rfl, hwin.1, hwin.2⟩
  · simp at he

theorem Loop_args {σ : Type} (w : Nat) (c : Timeline) (d : Int)
    (f : List (Int × Timeline → σ → σ)) (s : σ) :
    ∀ r ∈ c.Loop w d (traced f) (s, []), ∀ e ∈ r.2,
      ∃ n, wdiv w (wsub w c.now c.from_) d = some n ∧ c.from_ ≤ c.now ∧
        e.2 = (n, ⟨wadd w c.from_ (wmul w n d), wadd w c.from_ (wmul w (wadd w n 1) d),
          c.now⟩) := by
  intro r hr e he
  unfold Timeline.Loop at hr
  split at hr
  · simp only [Option.mem_def, Option.some.injEq] at hr
    subst hr
    simp at he
  · rename_i hge
    split at hr
    · simp at hr
    · rename_i n hn
      simp only [Option.mem_def, Option.some.injEq, foldl_traced] at hr
      subst hr
      simp only [List.mem_map] at he
      obtain ⟨i, -, rfl⟩ := he
      exact ⟨n, hn, not_lt.mp hge, rfl⟩

theorem LoopN_args {σ : Type} (w : Nat) (c : Timeline) (d N : Int)
    (f : List (Int × Timeline → σ → σ)) (s : σ) :
    ∀ r ∈ c.LoopN w d N (traced f) (s, []), ∀ e ∈ r.2.2,
      ∃ m, wdiv w (wsub w c.now c.from_) d = some m ∧ 0 ≤ m ∧ m < wrap w N ∧
        e.2 = (m, ⟨wadd w c.from_ (wmul w m d), wadd w c.from_ (wmul w (wadd w m 1) d),
          c.now⟩) := by
  intro r hr e he
  unfold Timeline.LoopN at hr
  split at hr
  · simp at hr
  · rename_i m hm
    simp only [Option.mem_def, Option.some.injEq] at hr
    subst hr
    simp only at he
    split at he
    · rename_i hin
      simp only [foldl_traced, List.mem_map] at he
      obtain ⟨i, -, rfl⟩ := he
      exact ⟨m, hm, hin.1, hin.2, rfl⟩
    · simp at he

theorem Derived_now (w : Nat) (t0 c : Timeline) (h : Derived w t0 c) : c.now = t0.now := by
  induction h with
  | start => rfl
  | span_ret c d _ ih => exact ih
  | span_arg c d e _ he ih =>
    rw [(Span_args w c d _ () e he).1]; exact ih
  | loop_arg c d r e _ hr he ih =>
    obtain ⟨n, -, -, h2⟩ := Loop_args w c d _ () r hr e he
    rw [h2]; exact ih
  | loopN_ret c d n r _ hr ih =>
    rw [LoopN_fst w c d n _ () r hr]; exact ih
  | loopN_arg c d n r e _ hr he ih =>
    obtain ⟨m, -, -, -, h2⟩ := LoopN_args w c d n _ () r hr e he
    rw [h2]; exact ih
  | once_ret c _ ih => exact ih

/-- C16: `now` does not change within a chain.  Every cursor that `Span`, `Loop` or
`LoopN` hands to a callback and every cursor that `Span`, `LoopN` or `Once` returns has
the `now` of the receiver; hence every cursor derived from `New(t)` by any sequence of
these operations, also on cursors received inside callbacks, has `now == t`. -/
theorem now_unchanged {σ : Type} (w : Nat) :
    (∀ (c : Timeline) (d : Int) (f : List (Timeline → σ → σ)) (s : σ),
        (c.Span w d f s).1.now = c.now ∧
          ∀ e ∈ (c.Span w d (traced f) (s, [])).2.2, e.2.now = c.now) ∧
      (∀ (c : Timeline) (d : Int) (f : List (Int × Timeline → σ → σ)) (s : σ),
        ∀ r ∈ c.Loop w d (traced f) (s, []), ∀ e ∈ r.2, e.2.2.now = c.now) ∧
      (∀ (c : Timeline) (d n : Int) (f : List (Int × Timeline → σ → σ)) (s : σ),
        (∀ r ∈ c.LoopN w d n f s, r.1.now = c.now) ∧
          ∀ r ∈ c.LoopN w d n (traced f) (s, []), ∀ e ∈ r.2.2, e.2.2.now = c.now) ∧
      (∀ (c : Timeline) (f : List (Unit → σ → σ)) (s : σ), (c.Once f s).1.now = c.now) ∧
      (∀ (t : Int) (c : Timeline), Derived w (New t) c → c.now = t) := by
  refine ⟨?_, ?_, ?_, fun c f s => rfl, fun t c h => Derived_now w (New t) c h⟩
  · intro c d f s
    refine ⟨rfl, fun e he => ?_⟩
    rw [(Span_args w c d f s e he).1]
  · intro c d f s r hr e he
    obtain ⟨n, -, -, h2⟩ := Loop_args w c d f s r hr e he
    rw [h2]
  · intro c d n f s
    refine ⟨fun r hr => ?_, fun r hr e he => ?_⟩
    · rw [LoopN_fst w c d n f s r hr]
    · obtain ⟨m, -, -, -, h2⟩ := LoopN_args w c d n f s r hr e he
      rw [h2]

/-- Witness of C16: in `New(4).Span(3, a).Span(3, b)` for `T = int`, the cursor
`(3, 6, 4)` handed to `b` is derived from `New(4)` and has `now = 4`. -/
theorem now_unchanged_witness :
    Derived 64 (New 4) ⟨3, 6, 4⟩ ∧ (⟨3, 6, 4⟩ : Timeline).now = 4 := by
  have h1 : Derived 64 (New 4) ⟨3, 3, 4⟩ := Derived.span_ret (New 4) 3 Derived.start
  have h2 : Derived 64 (New 4) ⟨3, 6, 4⟩ :=
    Derived.span_arg ⟨3, 3, 4⟩ 3 (0, ⟨3, 6, 4⟩) h1 (by decide)
  exact ⟨h2, (now_unchanged (σ := Unit) 64).2.2.2.2 4 ⟨3, 6, 4⟩ h2⟩

/-- C17 (as stated, refuted): for `T = int` (64 bits), `New(2^63 - 1).Loop(3, cb)`
hands `cb` the cursor `(2^63 - 2, -2^63 + 1, 2^63 - 1)`, whose `from` exceeds its `to`:
the end of the window has wrapped around. -/
theorem Loop_arg_from_exceeds_to :
    ((0 : Int) < 3 ∧ (New 9223372036854775807).from_ ≤ (New 9223372036854775807).to_) ∧
      (New 9223372036854775807).Loop 64 3 (traced [fun _ (u : Unit) => u]) ((), []) =
        some ((), [(0, (3074457345618258602,
          ⟨9223372036854775806, -9223372036854775807, 9223372036854775807⟩))]) ∧
      ¬ ((9223372036854775806 : Int) ≤ -9223372036854775807) := by
  decide

theorem window_le (w : Nat) (hw : 0 < w) (a m d : Int) (hd : 0 ≤ d)
    (h1 : InRange w (a + m * d)) (h2 : InRange w (a + (m + 1) * d)) :
    wadd w a (wmul w m d) ≤ wadd w a (wmul w (wadd w m 1) d) := by
  rw [window_from w a (wadd w m 1) d, window_to, window_from,
    wrap_of_inRange w hw _ h1, wrap_of_inRange w hw _ h2]
  have : a + (m + 1) * d = a + m * d + d := by ring
  omega

/-- C17 (amended): `New(t)` has `from ≤ to`; a cursor returned by `Span` or by `LoopN`
has `from == to`; a cursor handed to a callback by `Span` has `from < to`; `Once`
returns its receiver, so it preserves `from ≤ to`.  A cursor handed to a callback by
`Loop` or `LoopN` with a non-negative duration and index `m` has `from ≤ to` provided
its bounds `from + m*duration` and `from + (m+1)*duration` lie in the range of the unit
type. -/
theorem from_le_to {σ : Type} (w : Nat) (hw : 0 < w) :
    (∀ t : Int, (New t).from_ ≤ (New t).to_) ∧
      (∀ (c : Timeline) (d : Int) (f : List (Timeline → σ → σ)) (s : σ),
        (c.Span w d f s).1.from_ = (c.Span w d f s).1.to_ ∧
          ∀ e ∈ (c.Span w d (traced f) (s, [])).2.2, e.2.from_ < e.2.to_) ∧
      (∀ (c : Timeline) (d n : Int) (f : List (Int × Timeline → σ → σ)) (s : σ),
        ∀ r ∈ c.LoopN w d n f s, r.1.from_ = r.1.to_) ∧
      (∀ (c : Timeline) (f : List (Unit → σ → σ)) (s : σ),
        c.from_ ≤ c.to_ → (c.Once f s).1.from_ ≤ (c.Once f s).1.to_) ∧
      (∀ (c : Timeline) (d : Int) (f : List (Int × Timeline → σ → σ)) (s : σ), 0 ≤ d →
        ∀ r ∈ c.Loop w d (traced f) (s, []), ∀ e ∈ r.2,
          InRange w (c.from_ + e.2.1 * d) → InRange w (c.from_ + (e.2.1 + 1) * d) →
            e.2.2.from_ ≤ e.2.2.to_) ∧
      (∀ (c : Timeline) (d n : Int) (f : List (Int × Timeline → σ → σ)) (s : σ), 0 ≤ d →
        ∀ r ∈ c.LoopN w d n (traced f) (s, []), ∀ e ∈ r.2.2,
          InRange w (c.from_ + e.2.1 * d) → InRange w (c.from_ + (e.2.1 + 1) * d) →
            e.2.2.from_ ≤ e.2.2.to_) := by
  refine ⟨fun t => le_refl _, ?_, ?_, fun c f s h => h, ?_, ?_⟩
  · intro c d f s
    refine ⟨rfl, fun e he => ?_⟩
    obtain ⟨h1, h2, h3⟩ := Span_args w c d f s e he
    rw [h1]
    exact lt_of_le_of_lt h2 h3
  · intro c d n f s r hr
    rw [LoopN_fst w c d n f s r hr]
  · intro c d f s hd r hr e he
    obtain ⟨n, -, -, h2⟩ := Loop_args w c d f s r hr e he
    rw [h2]
    exact fun h3 h4 => window_le w hw c.from_ n d hd h3 h4
  · intro c d n f s hd r hr e he
    obtain ⟨m, -, -, -, h2⟩ := LoopN_args w c d n f s r hr e he
    rw [h2]
    exact fun h3 h4 => window_le w hw c.from_ m d hd h3 h4

/-- Witness of C17: `Loop(3, cb)` on the cursor `(6, 6, 13)` for `T = int` hands `cb`
the cursor `(12, 15, 13)`. -/
theorem from_le_to_witness :
    (0 < 64 ∧ (0 : Int) ≤ 3 ∧ InRange 64 (6 + 2 * 3) ∧ InRange 64 (6 + (2 + 1) * 3)) ∧
      (⟨12, 15, 13⟩ : Timeline).from_ ≤ (⟨12, 15, 13⟩ : Timeline).to_ :=
  ⟨by decide,
    (from_le_to (σ := Unit) 64 (by decide)).2.2.2.2.1 ⟨6, 6, 13⟩ 3 [fun _ u => u] ()
      (by decide) ((), [(0, (2, ⟨12, 15, 13⟩))]) (by decide) (0, (2, ⟨12, 15, 13⟩))
      (by decide) (by decide) (by decide)⟩

/-! ## Faults -/

theorem Ratio_checked_isSome (w : Nat) (c : Timeline) :
    (c.Ratio w checkedOps).isSome = true := by
  unfold Timeline.Ratio
  split
  · rfl
  · rename_i h
    have hq : ((wsub w c.to_ c.from_ : Int) : ℚ) ≠ 0 := by exact_mod_cast h
    simp [checkedOps, hq]

/-- C19: the only fault of the package is the integer division by a zero duration.
`Loop` and `LoopN` with `duration ≠ 0` return for all arguments; `LoopN` with
`duration == 0` faults for every cursor; `Loop` with `duration == 0` returns without
invoking anything when `now < from` and faults otherwise.  `Ratio`, run with a division
that reports a zero divisor, never reports one.  `New`, `Elapsed`, `Span` and `Once`
contain no division and are total functions of the embedding. -/
theorem faults_only_on_zero_duration {σ : Type} (w : Nat) :
    (∀ (c : Timeline) (d : Int) (f : List (Int × Timeline → σ → σ)) (s : σ),
        d ≠ 0 → (c.Loop w d f s).isSome = true) ∧
      (∀ (c : Timeline) (d n : Int) (f : List (Int × Timeline → σ → σ)) (s : σ),
        d ≠ 0 → (c.LoopN w d n f s).isSome = true) ∧
      (∀ (c : Timeline) (n : Int) (f : List (Int × Timeline → σ → σ)) (s : σ),
        c.LoopN w 0 n f s = none) ∧
      (∀ (c : Timeline) (f : List (Int × Timeline → σ → σ)) (s : σ),
        c.Loop w 0 f s = if c.now < c.from_ then some s else none) ∧
      (∀ c : Timeline, (c.Ratio w checkedOps).isSome = true) := by
  refine ⟨?_, ?_, ?_, ?_, Ratio_checked_isSome w⟩
  · intro c d f s hd
    unfold Timeline.Loop
    split
    · rfl
    · simp [wdiv, hd]
  · intro c d n f s hd
    unfold Timeline.LoopN
    simp [wdiv, hd]
  · intro c n f s
    unfold Timeline.LoopN
    simp [wdiv]
  · intro c f s
    unfold Timeline.Loop
    split
    · rfl
    · simp [wdiv]

/-- Witness of C19: `Loop(3, cb)` on the cursor `(6, 6, 13)` for `T = int` returns. -/
theorem faults_only_on_zero_duration_witness :
    (3 : Int) ≠ 0 ∧
      ((⟨6, 6, 13⟩ : Timeline).Loop 64 3 [fun _ (u : Unit) => u] ()).isSome = true :=
  ⟨by decide,
    (faults_only_on_zero_duration (σ := Unit) 64).1 ⟨6, 6, 13⟩ 3 [fun _ u => u] ()
      (by decide)⟩

/-! ## New followed by LoopN -/

theorem wrap_le_self (w : Nat) (n : Int) (hn : 0 ≤ n) : wrap w n ≤ n := by
  have hpos : (0 : Int) < 2 ^ w := by positivity
  have h1 : n % 2 ^ w ≤ n := by
    have hdef := Int.emod_def n (2 ^ w)
    have hq : 0 ≤ n / 2 ^ w := Int.ediv_nonneg hn (le_of_lt hpos)
    have : 0 ≤ 2 ^ w * (n / 2 ^ w) := mul_nonneg (le_of_lt hpos) hq
    omega
  unfold wrap
  split <;> omega

theorem New_LoopN_traced {σ : Type} (w : Nat) (hw : 0 < w) (p n t : Int) (hp : 0 < p)
    (ht : InRange w t) (cb : Int × Timeline → σ → σ) (s : σ) :
    (New t).LoopN w p n (traced [cb]) (s, []) =
      some (⟨wrap w (n * p), wrap w (n * p), t⟩,
        if 0 ≤ Int.tdiv t p ∧ Int.tdiv t p < wrap w n then
          (cb (Int.tdiv t p,
              ⟨wrap w (Int.tdiv t p * p), wrap w ((Int.tdiv t p + 1) * p), t⟩) s,
            [(0, (Int.tdiv t p,
              ⟨wrap w (Int.tdiv t p * p), wrap w ((Int.tdiv t p + 1) * p), t⟩))])
        else (s, [])) := by
  have hL := LoopN_traced w (New t) p (ne_of_gt hp) n [cb] s
  have hnow : (New t).now = t := rfl
  have hfr : (New t).from_ = 0 := rfl
  have hq : wrap w (Int.tdiv t p) = Int.tdiv t p :=
    wrap_of_inRange w hw _ (tdiv_inRange w t p hp ht)
  simp only [hnow, hfr, wsub_zero w hw t ht, hq, zero_add, List.foldl_cons, List.foldl_nil,
    List.length_singleton, show List.range 1 = [0] from rfl, List.map_cons,
    List.map_nil] at hL
  exact hL

/-- C11 (as stated, refuted): for `T = int` (64 bits), `New(5).LoopN(2^62, 2, cb)`
invokes `cb` (index `0`, cursor `(0, 2^62, 5)`) and returns a cursor with
`from = -2^63`.  The exact product `n*p = 2^63` is not the returned `from`, and the
product of the unit type, `-2^63`, is not above `t = 5` although `cb` is invoked. -/
theorem New_LoopN_product_overflows :
    ((0 : Int) < 4611686018427387904 ∧ (0 : Int) ≤ 2) ∧
      (New 5).LoopN 64 4611686018427387904 2 (traced [fun _ (u : Unit) => u]) ((), []) =
        some (⟨-9223372036854775808, -9223372036854775808, 5⟩,
          ((), [(0, (0, ⟨0, 4611686018427387904, 5⟩))])) ∧
      (2 * 4611686018427387904 : Int) ≠ -9223372036854775808 ∧
      wmul 64 2 4611686018427387904 ≤ 5 := by
  decide

/-- C11 (amended): for a period `p > 0`, a count `n ≥ 0` and a sample `t`,
`New(t).LoopN(p, n, cb)` returns a cursor whose `from` is `n*p` reduced into the unit
type (`n*p` itself when it does not exceed the largest value of the unit type), and
invokes `cb` only if `0 ≤ t/p < n` (truncated division).  When `n` lies in the range of
the unit type and `0 ≤ t < n*p`, it invokes `cb` once, with the index `t / p` and a
cursor whose `Elapsed()` is `t mod p`; when `t ≥ n*p` (the exact product) it does not
invoke `cb`.  For `p = 4`, `n = 2`, `T = int`: `t = 0, …, 7` give the indices
`0, 0, 0, 0, 1, 1, 1, 1` and the elapsed values `0, 1, 2, 3, 0, 1, 2, 3`, `t = 8, 9`
invoke nothing, and the returned `from` is `8`. -/
theorem New_LoopN_index_elapsed {σ : Type} (w : Nat) (hw : 0 < w) (p n t : Int)
    (hp : 0 < p) (hn : 0 ≤ n) (ht : InRange w t) (cb : Int × Timeline → σ → σ) (s : σ) :
    ((New t).LoopN w p n (traced [cb]) (s, [])).map Prod.fst =
        some ⟨wrap w (n * p), wrap w (n * p), t⟩ ∧
      (n * p ≤ maxT w → wrap w (n * p) = n * p) ∧
      (∀ r ∈ (New t).LoopN w p n (traced [cb]) (s, []), r.2.2 ≠ [] →
        0 ≤ Int.tdiv t p ∧ Int.tdiv t p < n) ∧
      (InRange w n → 0 ≤ t → t < n * p →
        ((New t).LoopN w p n (traced [cb]) (s, [])).map Prod.snd =
            some (cb (t / p, ⟨t / p * p, wrap w ((t / p + 1) * p), t⟩) s,
              [(0, (t / p, ⟨t / p * p, wrap w ((t / p + 1) * p), t⟩))]) ∧
          (⟨t / p * p, wrap w ((t / p + 1) * p), t⟩ : Timeline).Elapsed w = t % p) ∧
      (n * p ≤ t →
        ((New t).LoopN w p n (traced [cb]) (s, [])).map Prod.snd = some (s, [])) ∧
      (List.range 10).map (fun k : Nat =>
          ((New k).LoopN 64 4 2 (traced [fun _ (u : Unit) => u]) ((), [])).map
            (fun r => (r.1.from_, r.2.2.map (fun c => (c.2.1, c.2.2.Elapsed 64))))) =
        [some (8, [(0, 0)]), some (8, [(0, 1)]), some (8, [(0, 2)]), some (8, [(0, 3)]),
          some (8, [(1, 0)]), some (8, [(1, 1)]), some (8, [(1, 2)]), some (8, [(1, 3)]),
          some (8, []), some (8, [])] := by
  have hL := New_LoopN_traced w hw p n t hp ht cb s
  have ht1 : minT w ≤ t := ht.1
  have ht2 : t ≤ maxT w := ht.2
  have hmin := minT_le_zero w
  have hwn := wrap_le_self w n hn
  refine ⟨by rw [hL]; rfl, ?_, ?_, ?_, ?_, by decide⟩
  · intro h
    have : 0 ≤ n * p := mul_nonneg hn (le_of_lt hp)
    exact wrap_of_inRange w hw _ ⟨by omega, h⟩
  · intro r hr hne
    rw [hL] at hr
    simp only [Option.mem_def, Option.some.injEq] at hr
    subst hr
    simp only at hne
    split at hne
    · rename_i hin
      exact ⟨hin.1, by omega⟩
    · exact absurd rfl hne
  · intro hnr h0 hlt
    have hdiv : Int.tdiv t p = t / p := Int.tdiv_eq_ediv h0 (le_of_lt hp)
    have hq0 : 0 ≤ t / p := Int.ediv_nonneg h0 (le_of_lt hp)
    have hq1 : t / p < n := Int.ediv_lt_of_lt_mul hp hlt
    have hmod := Int.emod_def t p
    have hm0 : 0 ≤ t % p := Int.emod_nonneg t (ne_of_gt hp)
    have hmul : t / p * p = t - t % p := by rw [hmod, mul_comm]; ring
    have hle : t % p ≤ t := by
      have : 0 ≤ t / p * p := mul_nonneg hq0 (le_of_lt hp)
      omega
    have hfrom : wrap w (t / p * p) = t / p * p :=
      wrap_of_inRange w hw _ ⟨by omega, by omega⟩
    constructor
    · rw [hL]
      simp only [hdiv, hfrom, wrap_of_inRange w hw n hnr, Option.map_some']
      rw [if_pos ⟨hq0, hq1⟩]
    · show wrap w (t - t / p * p) = t % p
      rw [hmul]
      have : t - (t - t % p) = t % p := by ring
      rw [this]
      exact wrap_of_inRange w hw _ ⟨by omega, by omega⟩
  · intro hge
    have h0 : 0 ≤ t := le_trans (mul_nonneg hn (le_of_lt hp)) hge
    have hdiv : Int.tdiv t p = t / p := Int.tdiv_eq_ediv h0 (le_of_lt hp)
    have hq : n ≤ t / p := Int.le_ediv_of_mul_le hp hge
    rw [hL]
    simp only [hdiv, Option.map_some']
    rw [if_neg (by omega)]

/-- Witness of C11: `p = 4`, `n = 2`, `t = 5`, `T = int`. -/
theorem New_LoopN_index_elapsed_witness :
    (0 < 64 ∧ (0 : Int) < 4 ∧ (0 : Int) ≤ 2 ∧ InRange 64 5 ∧ InRange 64 2 ∧ (0 : Int) ≤ 5 ∧
        (5 : Int) < 2 * 4) ∧
      ((New 5).LoopN 64 4 2 (traced [fun _ (u : Unit) => u]) ((), [])).map Prod.snd =
        some ((), [(0, (5 / 4, ⟨5 / 4 * 4, wrap 64 ((5 / 4 + 1) * 4), 5⟩))]) :=
  ⟨by decide,
    ((New_LoopN_index_elapsed 64 (by decide) 4 2 5 (by decide) (by decide) (by decide)
      (fun _ (u : Unit) => u) ()).2.2.2.1 (by decide) (by decide) (by decide)).1⟩

/-! ## Operations on the cursor handed to a callback -/

theorem tmod_inRange (w : Nat) (a p : Int) (hp : 0 < p) (ha : InRange w a) :
    InRange w (Int.tmod a p) := by
  have h3 := minT_le_zero w
  have h4 := maxT_nonneg w
  have ha1 : minT w ≤ a := ha.1
  have ha2 : a ≤ maxT w := ha.2
  rw [Int.tmod_def]
  rcases le_or_lt 0 a with h | h
  · have e : Int.tdiv a p = a / p := Int.tdiv_eq_ediv h (le_of_lt hp)
    have hm0 : 0 ≤ a % p := Int.emod_nonneg a (ne_of_gt hp)
    have hdef := Int.emod_def a p
    have hq : 0 ≤ p * (a / p) := mul_nonneg (le_of_lt hp) (Int.ediv_nonneg h (le_of_lt hp))
    rw [e]
    constructor <;> omega
  · have e : Int.tdiv a p = -((-a) / p) := by
      rw [← Int.tdiv_eq_ediv (by omega) (le_of_lt hp), Int.neg_tdiv, neg_neg]
    have hm0 : 0 ≤ (-a) % p := Int.emod_nonneg (-a) (ne_of_gt hp)
    have hdef := Int.emod_def (-a) p
    have hq : 0 ≤ p * ((-a) / p) :=
      mul_nonneg (le_of_lt hp) (Int.ediv_nonneg (by omega) (le_of_lt hp))
    have e2 : a - p * -((-a) / p) = a + p * ((-a) / p) := by ring
    rw [e, e2]
    constructor <;> omega

theorem Elapsed_Loop_window (w : Nat) (hw : 0 < w) (a now p : Int) (hp : 0 < p) :
    (⟨wrap w (a + Int.tdiv (wsub w now a) p * p),
        wrap w (a + (Int.tdiv (wsub w now a) p + 1) * p), now⟩ : Timeline).Elapsed w =
      Int.tmod (wsub w now a) p := by
  show wrap w (now - wrap w (a + Int.tdiv (wsub w now a) p * p)) = _
  rw [wrap_sub_right]
  have e : wrap w (now - (a + Int.tdiv (wsub w now a) p * p)) =
      wrap w (wsub w now a - Int.tdiv (wsub w now a) p * p) := by
    unfold wsub
    rw [wrap_sub_left]
    congr 1
    ring
  rw [e]
  have e2 : wsub w now a - Int.tdiv (wsub w now a) p * p = Int.tmod (wsub w now a) p := by
    rw [Int.tmod_def, mul_comm]
  rw [e2]
  exact wrap_of_inRange w hw _ (tmod_inRange w _ p hp (wrap_inRange w hw _))

theorem Ratio_exact_eq (w : Nat) (hw : 0 < w) (t : Timeline)
    (h1 : InRange w (t.to_ - t.from_)) (h2 : InRange w (t.now - t.from_))
    (h3 : t.to_ - t.from_ ≠ 0) :
    t.Ratio w exactOps = ((t.now - t.from_ : Int) : ℚ) / ((t.to_ - t.from_ : Int) : ℚ) := by
  unfold Timeline.Ratio wsub
  rw [wrap_of_inRange w hw _ h1, wrap_of_inRange w hw _ h2, if_neg h3]
  rfl

theorem Example_nested_records :
    (List.range 12).map (fun t : Nat => Example_nested t) =
      [(((), [(0, (0, ⟨0, 3, 0⟩))]), []), (((), [(0, (0, ⟨0, 3, 1⟩))]), []),
        (((), [(0, (0, ⟨0, 3, 2⟩))]), []), (((), [(0, (1, ⟨3, 6, 3⟩))]), []),
        (((), [(0, (1, ⟨3, 6, 4⟩))]), []), (((), [(0, (1, ⟨3, 6, 5⟩))]), []),
        (((), []), [(0, ⟨6, 8, 6⟩)]), (((), []), [(0, ⟨6, 8, 7⟩)]),
        (((), []), [(1, ⟨8, 10, 8⟩)]), (((), []), [(1, ⟨8, 10, 9⟩)]),
        (((), []), [(2, ⟨10, 12, 10⟩)]), (((), []), [(2, ⟨10, 12, 11⟩)])] := by
  rfl

theorem Loop_on_window {σ : Type} (w : Nat) (hw : 0 < w) (a b now p : Int) (hp : 0 < p)
    (h : a ≤ now) (cb : Int × Timeline → σ → σ) (s : σ) :
    (⟨a, b, now⟩ : Timeline).Loop w p (traced [cb]) (s, []) =
      some (cb (Int.tdiv (wsub w now a) p,
          ⟨wrap w (a + Int.tdiv (wsub w now a) p * p),
            wrap w (a + (Int.tdiv (wsub w now a) p + 1) * p), now⟩) s,
        [(0, (Int.tdiv (wsub w now a) p,
          ⟨wrap w (a + Int.tdiv (wsub w now a) p * p),
            wrap w (a + (Int.tdiv (wsub w now a) p + 1) * p), now⟩))]) := by
  rw [Loop_traced w hw ⟨a, b, now⟩ p hp [cb] s]
  simp only [if_neg (not_lt.mpr h), List.foldl_cons, List.foldl_nil, List.length_singleton,
    show List.range 1 = [0] from rfl, List.map_cons, List.map_nil]

/-- C18: operations chained on the cursor `c` that `Span` hands to its callback are laid
out from the start `a` of that span.  The chain `c.Span(e_1, A_1). … .Span(e_k, A_k)`
invokes `A_j` exactly when `a + e_1 + … + e_(j-1) ≤ now < a + e_1 + … + e_j` (sums of the
unit type), with the cursor made of these two bounds and `now`, so that `Elapsed()` and
`Ratio()` are measured from the start of the inner window.  `c.Loop(p, B)` with `p > 0`
invokes `B` once with the index `(now - a) / p` and a cursor whose `Elapsed()` is
`(now - a) % p`, quotient and remainder being those of Go on the difference of the unit
type; they are the usual quotient and remainder when `now - a` does not overflow.  In
`Example_nested` (`New(t).Span(6, f).Span(6, g)`, `t = 0, …, 11`) the inner loop runs
with index and elapsed `(0,0), (0,1), (0,2), (1,0), (1,1), (1,2)` for `t = 0, …, 5`, and
the inner spans `A`, `B`, `C` run for `t` in `{6,7}`, `{8,9}`, `{10,11}` with the ratios
`0` and `1/2`. -/
theorem nested_on_Span_argument {σ : Type} (w : Nat) (hw : 0 < w) (c0 : Timeline) (d : Int)
    (f0 : List (Timeline → σ → σ)) (s0 : σ) (e : Call Timeline)
    (he : e ∈ (c0.Span w d (traced f0) (s0, [])).2.2) :
    (∀ (es : List Int) (cbs : List (Timeline → σ → σ)) (s : σ), cbs.length = es.length →
        (spanChain w e.2 (es.zip (traced cbs)) (s, [])).2.2 =
          ((List.range es.length).filter
              (fun j => (es.take j).foldl (wadd w) c0.from_ ≤ c0.now ∧
                c0.now < (es.take (j + 1)).foldl (wadd w) c0.from_)).map
            (fun j => (j, (⟨(es.take j).foldl (wadd w) c0.from_,
              (es.take (j + 1)).foldl (wadd w) c0.from_, c0.now⟩ : Timeline)))) ∧
      (∀ x : Timeline, x.now = c0.now → x.Elapsed w = wsub w c0.now x.from_) ∧
      (∀ (p : Int) (cb : Int × Timeline → σ → σ) (s : σ), 0 < p →
        e.2.Loop w p (traced [cb]) (s, []) =
            some (cb (Int.tdiv (wsub w c0.now c0.from_) p,
                ⟨wrap w (c0.from_ + Int.tdiv (wsub w c0.now c0.from_) p * p),
                  wrap w (c0.from_ + (Int.tdiv (wsub w c0.now c0.from_) p + 1) * p),
                  c0.now⟩) s,
              [(0, (Int.tdiv (wsub w c0.now c0.from_) p,
                ⟨wrap w (c0.from_ + Int.tdiv (wsub w c0.now c0.from_) p * p),
                  wrap w (c0.from_ + (Int.tdiv (wsub w c0.now c0.from_) p + 1) * p),
                  c0.now⟩))]) ∧
          (⟨wrap w (c0.from_ + Int.tdiv (wsub w c0.now c0.from_) p * p),
              wrap w (c0.from_ + (Int.tdiv (wsub w c0.now c0.from_) p + 1) * p),
              c0.now⟩ : Timeline).Elapsed w = Int.tmod (wsub w c0.now c0.from_) p ∧
          (c0.now - c0.from_ ≤ maxT w →
            Int.tdiv (wsub w c0.now c0.from_) p = (c0.now - c0.from_) / p ∧
              Int.tmod (wsub w c0.now c0.from_) p = (c0.now - c0.from_) % p)) ∧
      (List.range 12).map (fun t : Nat =>
          ((Example_nested t).1.2.map (fun x => (x.2.1, x.2.2.Elapsed 64)),
            (Example_nested t).2.map (fun x => (x.1, x.2.Ratio 64 exactOps)))) =
        [([(0, 0)], []), ([(0, 1)], []), ([(0, 2)], []), ([(1, 0)], []), ([(1, 1)], []),
          ([(1, 2)], []), ([], [(0, 0)]), ([], [(0, 1 / 2)]), ([], [(1, 0)]),
          ([], [(1, 1 / 2)]), ([], [(2, 0)]), ([], [(2, 1 / 2)])] := by
  obtain ⟨h1, h2, h3⟩ := Span_args w c0 d f0 s0 e he
  refine ⟨?_, ?_, ?_, ?_⟩
  · intro es cbs s hlen
    have hlog := spanChain_traced_log w c0.now es cbs hlen c0.from_ (wadd w c0.from_ d) 0 s []
    simp only [List.nil_append, Nat.zero_add] at hlog
    rw [h1]
    exact hlog
  · intro x hx
    show wsub w x.now x.from_ = _
    rw [hx]
  · intro p cb s hp
    have hmin := minT_le_zero w
    refine ⟨?_, Elapsed_Loop_window w hw c0.from_ c0.now p hp, ?_⟩
    · rw [h1]
      exact Loop_on_window w hw c0.from_ (wadd w c0.from_ d) c0.now p hp h2 cb s
    · intro hno
      have ea : wsub w c0.now c0.from_ = c0.now - c0.from_ :=
        wrap_of_inRange w hw _ ⟨by omega, hno⟩
      rw [ea]
      exact ⟨Int.tdiv_eq_ediv (by omega) (le_of_lt hp),
        Int.tmod_eq_emod (by omega) (le_of_lt hp)⟩
  · have hfun : (fun t : Nat =>
        ((Example_nested t).1.2.map (fun x => (x.2.1, x.2.2.Elapsed 64)),
          (Example_nested t).2.map (fun x => (x.1, x.2.Ratio 64 exactOps)))) =
        (fun r : (Unit × List (Call (Int × Timeline))) × List (Call Timeline) =>
          (r.1.2.map (fun x => (x.2.1, x.2.2.Elapsed 64)),
            r.2.map (fun x => (x.1, x.2.Ratio 64 exactOps)))) ∘
          (fun t : Nat => Example_nested t) := rfl
    rw [hfun, ← List.map_map, Example_nested_records]
    have r0 : ∀ a b : Int, InRange 64 (b - a) → b - a ≠ 0 →
        (⟨a, b, a⟩ : Timeline).Ratio 64 exactOps = 0 := by
      intro a b hb hne
      rw [Ratio_exact_eq 64 (by decide) ⟨a, b, a⟩ hb (by simp; decide) hne]
      simp
    have r1 : ∀ a : Int, (⟨a, a + 2, a + 1⟩ : Timeline).Ratio 64 exactOps = 1 / 2 := by
      intro a
      rw [Ratio_exact_eq 64 (by decide) ⟨a, a + 2, a + 1⟩ (by simp; decide) (by simp; decide)
        (by simp)]
      simp
    have e6 := r0 6 8 (by decide) (by decide)
    have e8 := r0 8 10 (by decide) (by decide)
    have e10 := r0 10 12 (by decide) (by decide)
    have e7 := r1 6
    have e9 := r1 8
    have e11 := r1 10
    norm_num at e7 e9 e11
    simp only [List.map_cons, List.map_nil, e6, e7, e8, e9, e10, e11]
    rfl

/-- Witness of C18: the outer `Span(6, g)` on the cursor `(6, 6, 9)` hands `g` the
cursor `(6, 12, 9)`; the chain `Span(2, A).Span(2, B).Span(2, C)` on it invokes `B`
with the cursor `(8, 10, 9)`.  `T = int`. -/
theorem nested_on_Span_argument_witness :
    (0 < 64 ∧
        ((0, ⟨6, 12, 9⟩) : Call Timeline) ∈
          ((⟨6, 6, 9⟩ : Timeline).Span 64 6 (traced [fun _ (u : Unit) => u]) ((), [])).2.2 ∧
        [fun (_ : Timeline) (u : Unit) => u, fun _ u => u, fun _ u => u].length =
          [(2 : Int), 2, 2].length) ∧
      (spanChain 64 ⟨6, 12, 9⟩ ([(2 : Int), 2, 2].zip
          (traced [fun _ (u : Unit) => u, fun _ u => u, fun _ u => u])) ((), [])).2.2 =
        [(1, ⟨8, 10, 9⟩)] := by
  have h := (nested_on_Span_argument 64 (by decide) ⟨6, 6, 9⟩ 6 [fun _ (u : Unit) => u] ()
    (0, ⟨6, 12, 9⟩) (by decide)).1 [2, 2, 2] [fun _ u => u, fun _ u => u, fun _ u => u] ()
    rfl
  exact ⟨by decide, h.trans (by decide)⟩

/-! ## LoopN and repeated spans -/

theorem filter_range_eq (n M : Nat) :
    (List.range n).filter (fun j => decide (j = M)) = if M < n then [M] else [] := by
  induction n with
  | zero => simp
  | succ k ih =>
    rw [List.range_succ, List.filter_append, ih]
    by_cases h1 : M < k
    · have h2 : M < k + 1 := by omega
      have h3 : k ≠ M := by omega
      simp [h1, h2, h3]
    · by_cases h4 : k = M
      · subst h4
        simp
      · have h2 : ¬ M < k + 1 := by omega
        simp [h1, h2, h4]

theorem foldl_wadd_replicate (w : Nat) (hw : 0 < w) (a d : Int) (n j : Nat)
    (ha : minT w ≤ a) (hd : 0 ≤ d) (hno : a + n * d ≤ maxT w) (hj : j ≤ n) :
    ((List.replicate n d).take j).foldl (wadd w) a = a + j * d := by
  have hjn : (j : Int) * d ≤ n * d :=
    mul_le_mul_of_nonneg_right (by exact_mod_cast hj) hd
  rw [List.take_replicate, Nat.min_eq_left hj]
  rw [foldl_wadd_of_no_overflow w hw (List.replicate j d) a
    (fun x hx => by rw [List.eq_of_mem_replicate hx]; exact hd) ha
    (by simp only [List.sum_replicate, nsmul_eq_mul]; omega)]
  simp

theorem foldl_wadd_replicate_wrap (w : Nat) (a d : Int) :
    ∀ n : Nat, (List.replicate (n + 1) d).foldl (wadd w) a = wrap w (a + (n + 1 : Nat) * d) := by
  intro n
  induction n generalizing a with
  | zero => simp [wadd]
  | succ k ih =>
    rw [List.replicate_succ, List.foldl_cons, ih]
    unfold wadd
    rw [wrap_add_left]
    congr 1
    push_cast
    ring

theorem window_iff_index (a now d : Int) (j : Nat) (hd : 0 < d) (hge : a ≤ now) :
    (a + j * d ≤ now ∧ now < a + (j + 1) * d) ↔ j = ((now - a) / d).toNat := by
  have hq : 0 ≤ (now - a) / d := Int.ediv_nonneg (by omega) (le_of_lt hd)
  have h1 : (j : Int) ≤ (now - a) / d ↔ (j : Int) * d ≤ now - a := Int.le_ediv_iff_mul_le hd
  have h2 : (now - a) / d < (j : Int) + 1 ↔ now - a < ((j : Int) + 1) * d :=
    Int.ediv_lt_iff_lt_mul hd
  have h3 : (((now - a) / d).toNat : Int) = (now - a) / d := Int.toNat_of_nonneg hq
  constructor
  · rintro ⟨h4, h5⟩
    have h6 : (j : Int) ≤ (now - a) / d := h1.mpr (by omega)
    have h7 : (now - a) / d < (j : Int) + 1 := h2.mpr (by omega)
    omega
  · intro h
    have h6 : (j : Int) = (now - a) / d := by rw [h, h3]
    have h7 := h1.mp (le_of_eq h6)
    have h8 := h2.mp (by omega)
    constructor <;> omega

theorem spanChain_replicate_log {σ : Type} (w : Nat) (hw : 0 < w) (t : Timeline) (d : Int)
    (n : Nat) (hf : minT w ≤ t.from_) (hge : t.from_ ≤ t.now) (hd : 0 < d)
    (hno : t.from_ + n * d ≤ maxT w) (cbs : List (Timeline → σ → σ))
    (hlen : cbs.length = n) (s : σ) :
    (spanChain w t ((List.replicate n d).zip (traced cbs)) (s, [])).2.2 =
      if (t.now - t.from_) / d < n then
        [(((t.now - t.from_) / d).toNat,
          ⟨t.from_ + (t.now - t.from_) / d * d, t.from_ + ((t.now - t.from_) / d + 1) * d,
            t.now⟩)]
      else [] := by
  have hq : 0 ≤ (t.now - t.from_) / d := Int.ediv_nonneg (by omega) (le_of_lt hd)
  have h3 : (((t.now - t.from_) / d).toNat : Int) = (t.now - t.from_) / d :=
    Int.toNat_of_nonneg hq
  have hlog := spanChain_traced_log w t.now (List.replicate n d) cbs
    (by rw [hlen, List.length_replicate]) t.from_ t.to_ 0 s []
  simp only [List.nil_append, Nat.zero_add, List.length_replicate] at hlog
  have hcongr : (List.range n).filter
      (fun j => decide (((List.replicate n d).take j).foldl (wadd w) t.from_ ≤ t.now ∧
        t.now < ((List.replicate n d).take (j + 1)).foldl (wadd w) t.from_)) =
      (List.range n).filter (fun j => decide (j = ((t.now - t.from_) / d).toNat)) := by
    apply List.filter_congr
    intro j hj
    have hjn : j < n := List.mem_range.mp hj
    rw [foldl_wadd_replicate w hw t.from_ d n j hf (le_of_lt hd) hno (by omega),
      foldl_wadd_replicate w hw t.from_ d n (j + 1) hf (le_of_lt hd) hno (by omega)]
    have := window_iff_index t.from_ t.now d j hd hge
    push_cast
    simp only [this]
  have hlog2 : (spanChain w t ((List.replicate n d).zip (traced cbs)) (s, [])).2.2 = _ := hlog
  rw [hlog2, hcongr, filter_range_eq]
  by_cases hlt : (t.now - t.from_) / d < n
  · have hM : ((t.now - t.from_) / d).toNat < n := by omega
    rw [if_pos hM, if_pos hlt]
    simp only [List.map_cons, List.map_nil]
    rw [foldl_wadd_replicate w hw t.from_ d n _ hf (le_of_lt hd) hno (le_of_lt hM),
      foldl_wadd_replicate w hw t.from_ d n _ hf (le_of_lt hd) hno hM]
    push_cast
    rw [h3]
  · have hM : ¬ ((t.now - t.from_) / d).toNat < n := by omega
    rw [if_neg hM, if_neg hlt]
    rfl

theorem spanChain_replicate_cursor {σ : Type} (w : Nat) (hw : 0 < w) (t : Timeline)
    (d : Int) (n : Nat) (hf : InRange w t.from_) (h : n ≠ 0 ∨ t.to_ = t.from_)
    (cbs : List (Timeline → σ → σ)) (hlen : cbs.length = n) (s : σ) :
    (spanChain w t ((List.replicate n d).zip cbs) s).1 =
      ⟨wrap w (t.from_ + n * d), wrap w (t.from_ + n * d), t.now⟩ := by
  cases n with
  | zero =>
    have hto : t.to_ = t.from_ := by
      rcases h with h | h
      · exact absurd rfl h
      · exact h
    have e : wrap w (t.from_ + ((0 : Nat) : Int) * d) = t.from_ := by
      simp only [Nat.cast_zero, zero_mul, add_zero]
      exact wrap_of_inRange w hw _ hf
    rw [e]
    simp only [List.replicate_zero, List.zip_nil_left, spanChain]
    cases t with
    | mk a b c =>
      simp only at hto
      subst hto
      rfl
  | succ k =>
    cases cbs with
    | nil => simp at hlen
    | cons cb cbs =>
      have hlen2 : cbs.length = (List.replicate k d).length := by
        simp only [List.length_cons, Nat.add_right_cancel_iff] at hlen
        rw [hlen, List.length_replicate]
      have hc := spanChain_cursor w t.now (List.replicate k d) cbs hlen2 (wadd w t.from_ d)
        (t.Span w d [cb] s).2
      have hfold := foldl_wadd_replicate_wrap w t.from_ d k
      rw [List.replicate_succ, List.foldl_cons] at hfold
      rw [List.replicate_succ, List.zip_cons_cons]
      simp only [spanChain]
      have e1 : (t.Span w d [cb] s).1 = ⟨wadd w t.from_ d, wadd w t.from_ d, t.now⟩ := rfl
      rw [e1, hc, hfold]

theorem LoopN_no_overflow {σ : Type} (w : Nat) (hw : 0 < w) (t : Timeline) (d : Int)
    (n : Nat) (hf : InRange w t.from_) (hge : t.from_ ≤ t.now)
    (hsub : t.now - t.from_ ≤ maxT w) (hd : 0 < d) (hn : (n : Int) ≤ maxT w)
    (hno : t.from_ + n * d ≤ maxT w) (cb : Int × Timeline → σ → σ) (s : σ) :
    t.LoopN w d n (traced [cb]) (s, []) =
      some (⟨wrap w (t.from_ + n * d), wrap w (t.from_ + n * d), t.now⟩,
        if (t.now - t.from_) / d < n then
          (cb ((t.now - t.from_) / d,
              ⟨t.from_ + (t.now - t.from_) / d * d,
                t.from_ + ((t.now - t.from_) / d + 1) * d, t.now⟩) s,
            [(0, ((t.now - t.from_) / d,
              ⟨t.from_ + (t.now - t.from_) / d * d,
                t.from_ + ((t.now - t.from_) / d + 1) * d, t.now⟩))])
        else (s, [])) := by
  have hmin := minT_le_zero w
  have hf1 : minT w ≤ t.from_ := hf.1
  have hq0 : 0 ≤ (t.now - t.from_) / d := Int.ediv_nonneg (by omega) (le_of_lt hd)
  have hq1 : (t.now - t.from_) / d ≤ t.now - t.from_ := Int.ediv_le_self d (by omega)
  have ea : wsub w t.now t.from_ = t.now - t.from_ :=
    wrap_of_inRange w hw _ ⟨by omega, hsub⟩
  have hdiv : Int.tdiv (t.now - t.from_) d = (t.now - t.from_) / d :=
    Int.tdiv_eq_ediv (by omega) (le_of_lt hd)
  have em : wrap w ((t.now - t.from_) / d) = (t.now - t.from_) / d :=
    wrap_of_inRange w hw _ ⟨by omega, by omega⟩
  have en : wrap w (n : Int) = n :=
    wrap_of_inRange w hw _ ⟨by have : (0 : Int) ≤ n := Int.natCast_nonneg n; omega, hn⟩
  rw [LoopN_traced w t d (ne_of_gt hd) n [cb] s]
  simp only [ea, hdiv, em, en, List.foldl_cons, List.foldl_nil, List.length_singleton,
    show List.range 1 = [0] from rfl, List.map_cons, List.map_nil]
  by_cases hlt : (t.now - t.from_) / d < n
  · have hmul0 : 0 ≤ (t.now - t.from_) / d * d := mul_nonneg hq0 (le_of_lt hd)
    have hmul1 : ((t.now - t.from_) / d + 1) * d ≤ n * d :=
      mul_le_mul_of_nonneg_right (by omega) (le_of_lt hd)
    have hexp : ((t.now - t.from_) / d + 1) * d = (t.now - t.from_) / d * d + d := by ring
    have e1 : wrap w (t.from_ + (t.now - t.from_) / d * d) =
        t.from_ + (t.now - t.from_) / d * d :=
      wrap_of_inRange w hw _ ⟨by omega, by omega⟩
    have e2 : wrap w (t.from_ + ((t.now - t.from_) / d + 1) * d) =
        t.from_ + ((t.now - t.from_) / d + 1) * d :=
      wrap_of_inRange w hw _ ⟨by omega, by omega⟩
    simp only [hq0, hlt, and_self, if_true, e1, e2]
  · simp only [hlt, and_false, if_false]

/-- C20 (as stated, refuted), for `T = int` (64 bits).  On the cursor
`(-2^63, -2^63, 2^63 - 1)`, which `New(2^63 - 1).Span(2^63 - 1).Span(1)` returns,
`now ≥ from` holds, but `now - from` overflows to `-1`: `LoopN(2^62, 3, cb)` invokes `cb`
with index `0` and the cursor `(-2^63, -2^62, 2^63 - 1)`, while none of the three spans
`Span(2^62, cb_i)` invokes its callback.  On the cursor `(0, 5, 3)`, `LoopN(2, 0, cb)`
returns `(0, 0, 3)`, while the chain of zero spans is the cursor `(0, 5, 3)` itself. -/
theorem LoopN_differs_from_spans :
    (((New 9223372036854775807).Span 64 9223372036854775807
          ([] : List (Timeline → Unit → Unit)) ()).1.Span 64 1
          ([] : List (Timeline → Unit → Unit)) ()).1 =
        ⟨-9223372036854775808, -9223372036854775808, 9223372036854775807⟩ ∧
      ((-9223372036854775808 : Int) ≤ 9223372036854775807 ∧
        (0 : Int) < 4611686018427387904) ∧
      (⟨-9223372036854775808, -9223372036854775808, 9223372036854775807⟩ : Timeline).LoopN
          64 4611686018427387904 3 (traced [fun _ (u : Unit) => u]) ((), []) =
        some (⟨4611686018427387904, 4611686018427387904, 9223372036854775807⟩,
          ((), [(0, (0, ⟨-9223372036854775808, -4611686018427387904,
            9223372036854775807⟩))])) ∧
      (spanChain 64 ⟨-9223372036854775808, -9223372036854775808, 9223372036854775807⟩
          ((List.replicate 3 (4611686018427387904 : Int)).zip
            (traced [fun _ (u : Unit) => u, fun _ u => u, fun _ u => u])) ((), [])).2.2 =
        [] ∧
      ((⟨0, 5, 3⟩ : Timeline).LoopN 64 2 0 (traced [fun _ (u : Unit) => u]) ((), [])).map
          Prod.fst = some ⟨0, 0, 3⟩ ∧
      (spanChain 64 ⟨0, 5, 3⟩ ((List.replicate 0 (2 : Int)).zip
          (traced ([] : List (Timeline → Unit → Unit)))) ((), [])).1 = ⟨0, 5, 3⟩ := by
  decide

/-- C20 (amended): let the cursor have `now ≥ from`, let `duration > 0`, and let the count
`n`, the difference `now - from` and the sum `from + n*duration` not exceed the largest
value of the unit type.  Then `LoopN(duration, n, cb)` invokes `cb` with `(i, c)`
exactly when, in the chain `Span(duration, cb_0). … .Span(duration, cb_(n-1))` started
from the same cursor, the span at position `i` invokes `cb_i` with the same cursor `c`:
the records of the chain are those of `LoopN`, the index taken as the position.  When
`n ≥ 1` or the cursor has `to == from`, both return the cursor
`(from + n*duration, from + n*duration, now)`. -/
theorem LoopN_as_repeated_spans {σ : Type} (w : Nat) (hw : 0 < w) (t : Timeline) (d : Int)
    (n : Nat) (hf : InRange w t.from_) (hge : t.from_ ≤ t.now)
    (hsub : t.now - t.from_ ≤ maxT w) (hd : 0 < d) (hn : (n : Int) ≤ maxT w)
    (hno : t.from_ + n * d ≤ maxT w) (cb : Int × Timeline → σ → σ)
    (cbs : List (Timeline → σ → σ)) (hlen : cbs.length = n) (s s1 : σ) :
    (t.LoopN w d n (traced [cb]) (s, [])).map
          (fun r => r.2.2.map (fun x => (x.2.1.toNat, x.2.2))) =
        some (spanChain w t ((List.replicate n d).zip (traced cbs)) (s1, [])).2.2 ∧
      (n ≠ 0 ∨ t.to_ = t.from_ →
        (t.LoopN w d n (traced [cb]) (s, [])).map Prod.fst =
            some (spanChain w t ((List.replicate n d).zip (traced cbs)) (s1, [])).1 ∧
          (spanChain w t ((List.replicate n d).zip (traced cbs)) (s1, [])).1 =
            ⟨t.from_ + n * d, t.from_ + n * d, t.now⟩) := by
  have hL := LoopN_no_overflow w hw t d n hf hge hsub hd hn hno cb s
  have hC := spanChain_replicate_log w hw t d n hf.1 hge hd hno cbs hlen s1
  have hret : wrap w (t.from_ + n * d) = t.from_ + n * d := by
    have h0 : (0 : Int) ≤ n * d := mul_nonneg (Int.natCast_nonneg n) (le_of_lt hd)
    have hf1 : minT w ≤ t.from_ := hf.1
    exact wrap_of_inRange w hw _ ⟨by omega, hno⟩
  constructor
  · rw [hL, hC]
    by_cases hlt : (t.now - t.from_) / d < n
    · simp only [hlt, if_true, Option.map_some', List.map_cons, List.map_nil]
    · simp only [hlt, if_false, Option.map_some', List.map_nil]
  · intro h
    have hcur := spanChain_replicate_cursor w hw t d n hf h (traced cbs)
      (by rw [← hlen]; exact length_tracedFrom cbs 0) (s1, [])
    rw [hL, hcur, hret]
    exact ⟨rfl, rfl⟩

/-- Witness of C20: `LoopN(4, 2, cb)` and `Span(4, cb_0).Span(4, cb_1)` on the cursor
`(0, 0, 5)` for `T = int`: both record the index `1` with the cursor `(4, 8, 5)`. -/
theorem LoopN_as_repeated_spans_witness :
    (0 < 64 ∧ InRange 64 0 ∧ (0 : Int) ≤ 5 ∧ (5 : Int) - 0 ≤ maxT 64 ∧ (0 : Int) < 4 ∧
        ((2 : Nat) : Int) ≤ maxT 64 ∧ (0 : Int) + (2 : Nat) * 4 ≤ maxT 64 ∧
        [fun (_ : Timeline) (u : Unit) => u, fun _ u => u].length = 2) ∧
      ((⟨0, 0, 5⟩ : Timeline).LoopN 64 4 (2 : Nat) (traced [fun _ (u : Unit) => u])
          ((), [])).map (fun r => r.2.2.map (fun x => (x.2.1.toNat, x.2.2))) =
        some (spanChain 64 ⟨0, 0, 5⟩ ((List.replicate 2 (4 : Int)).zip
          (traced [fun _ (u : Unit) => u, fun _ u => u])) ((), [])).2.2 :=
  ⟨by decide,
    (LoopN_as_repeated_spans 64 (by decide) ⟨0, 0, 5⟩ 4 2 (by decide) (by decide)
      (by decide) (by decide) (by decide) (by decide) (fun _ (u : Unit) => u)
      [fun _ u => u, fun _ u => u] rfl () ()).1⟩

end timeline
